import Mathlib

/-!
Verification development for the go-patchutils hunk-merge engine.

The Go sources are embedded shallowly.  Texts are handled exactly as the Go
code handles them, through `strings.Split(s, "\n")`; we model that splitting
(and the matching join) directly on the character lists underlying `String`,
so that every definition is executable and kernel-reducible.

Hunk bodies are modeled in the normal form the library itself uses when it
constructs hunks and reads them: a body is the `"\n"`-join of its prefixed
lines (the Go readers strip a single trailing newline with
`strings.TrimSuffix(body, "\n")` before splitting; the writers produce
`strings.Join(lines, "\n") + "\n"`).  Go runtime panics (out-of-range slices
and indexing) are modeled as an explicit error value, and the one reachable
infinite loop of the merge walk is modeled as an explicit `diverge` error.
-/

/-- `strings.Split(s, "\n")` on the underlying character list. -/
def splitNlChar : List Char → List (List Char)
  | [] => [[]]
  | c :: cs =>
    if c = '\n' then [] :: splitNlChar cs
    else
      match splitNlChar cs with
      | [] => [[c]]
      | l :: ls => (c :: l) :: ls

/-- `strings.Split(s, "\n")`. -/
def splitNl (s : String) : List String :=
  (splitNlChar s.data).map String.mk

/-- `strings.Join(xs, "\n")` on character lists. -/
def joinNlChar : List (List Char) → List Char
  | [] => []
  | [l] => l
  | l :: l' :: ls => l ++ '\n' :: joinNlChar (l' :: ls)

/-- `strings.Join(xs, "\n")`. -/
def joinNl (xs : List String) : String :=
  String.mk (joinNlChar (xs.map String.data))

/-- `strings.TrimSuffix(s, "\n")` on character lists. -/
def trimNlChar (l : List Char) : List Char :=
  if l.getLast? = some '\n' then l.dropLast else l

/-- `strings.TrimSuffix(s, "\n")`. -/
def trimNl (s : String) : String :=
  String.mk (trimNlChar s.data)

/-- `strings.HasPrefix(s, c)` for the one-character prefixes the code uses. -/
def startsWithCh (s : String) (c : Char) : Bool :=
  s.data.head? = some c

/-- Go `line[1:]` (the lines in question start with a one-byte character). -/
def goTail1 (s : String) : String :=
  String.mk (s.data.drop 1)

/-- The hunk of a unified diff, mirroring `diff.Hunk` of sourcegraph/go-diff
as used by patchutils.go. -/
structure Hunk where
  OrigStartLine : Int
  OrigLines : Int
  OrigNoNewlineAt : Int
  NewStartLine : Int
  NewLines : Int
  Section : String
  StartPosition : Int
  Body : String
deriving DecidableEq

/-- A file diff, mirroring `diff.FileDiff` of sourcegraph/go-diff. -/
structure FileDiff where
  OrigName : String
  OrigTime : Option String
  NewName : String
  NewTime : Option String
  Extended : List String
  Hunks : List Hunk
deriving DecidableEq

/-- Failure modes of the embedded code.  `contentMismatch` is
`ErrContentMismatch`; `outOfSource` is the "diff content is out of source
content" error of `applyDiff`; `emptyDiffFile` is `ErrEmptyDiffFile`;
`emptyHunkSet` is the "one of the hunks array is empty" error of
`configureResultHunk`; `runtimePanic` models a Go runtime panic
(out-of-range slice or index); `diverge` models non-termination of the
merge walk; `fuelOut` is an artifact of the fuelled loops and is
unreachable for the fuel values the definitions pass. -/
inductive GoErr where
  | contentMismatch
  | outOfSource
  | emptyDiffFile
  | emptyHunkSet
  | runtimePanic
  | diverge
  | fuelOut
deriving DecidableEq

/-- Go slice `xs[lo:hi]`; panics unless `0 ≤ lo ≤ hi ≤ len`. -/
def goSlice (xs : List String) (lo hi : Int) : Except GoErr (List String) :=
  if 0 ≤ lo ∧ lo ≤ hi ∧ hi ≤ (xs.length : Int) then
    .ok ((xs.drop lo.toNat).take (hi - lo).toNat)
  else .error .runtimePanic

/-- Go slice `xs[lo:]`; panics unless `0 ≤ lo ≤ len`. -/
def goSliceFrom (xs : List String) (lo : Int) : Except GoErr (List String) :=
  if 0 ≤ lo ∧ lo ≤ (xs.length : Int) then .ok (xs.drop lo.toNat)
  else .error .runtimePanic

/-- Go index `xs[i]`; panics unless `0 ≤ i < len`. -/
def goIndex (xs : List String) (i : Int) : Except GoErr String :=
  if 0 ≤ i ∧ i < (xs.length : Int) then .ok (xs.getD i.toNat "")
  else .error .runtimePanic

/-- `strings.Split(strings.TrimSuffix(string(hunk.Body), "\n"), "\n")` —
how the Go code turns a stored hunk body into its lines. -/
def bodyLines (h : Hunk) : List String :=
  splitNl (trimNl h.Body)

/-- The body-line loop of `applyDiff` (patchutils.go:239-259): cursor `c` is
the 1-based line in the original; `+` lines are emitted, other lines are
checked against the source and consume a source line, with the
out-of-source check before every line. -/
def applyLines (sourceBody : List String) (c : Int) :
    List String → Except GoErr (Int × List String)
  | [] => .ok (c, [])
  | line :: rest =>
    if c > (sourceBody.length : Int) then .error .outOfSource
    else if startsWithCh line '+' then
      match applyLines sourceBody c rest with
      | .error e => .error e
      | .ok (c', out) => .ok (c', goTail1 line :: out)
    else if line.data.isEmpty then .error .runtimePanic
    else
      match goIndex sourceBody (c - 1) with
      | .error e => .error e
      | .ok s =>
        if goTail1 line ≠ s then .error .contentMismatch
        else
          match applyLines sourceBody (c + 1) rest with
          | .error e => .error e
          | .ok (c', out) =>
            .ok (c', if startsWithCh line ' ' then s :: out else out)

/-- The per-hunk loop of `applyDiff` (patchutils.go:232-260): copy the
untouched part of the source, then run the body lines, then recurse; after
the last hunk the remaining tail is appended. -/
def applyHunks (sourceBody : List String) (c : Int) :
    List Hunk → Except GoErr (List String)
  | [] => goSliceFrom sourceBody (c - 1)
  | h :: rest =>
    match goSlice sourceBody (c - 1) (h.OrigStartLine - 1) with
    | .error e => .error e
    | .ok pre =>
      match applyLines sourceBody h.OrigStartLine (bodyLines h) with
      | .error e => .error e
      | .ok (c', out) =>
        match applyHunks sourceBody c' rest with
        | .error e => .error e
        | .ok tail => .ok (pre ++ out ++ tail)

/-- `applyDiff` (patchutils.go:225-265): split the source on newlines, run
the hunks from cursor 1, join the result with newlines. -/
def applyDiff (source : String) (diffFile : FileDiff) : Except GoErr String :=
  match applyHunks (splitNl source) 1 diffFile.Hunks with
  | .error e => .error e
  | .ok body => .ok (joinNl body)

/-- `revertedLine`: `+x → -x`, `-x → +x`, anything else unchanged. -/
def revertedLine (line : String) : String :=
  if startsWithCh line '+' then String.mk ('-' :: line.data.drop 1)
  else if startsWithCh line '-' then String.mk ('+' :: line.data.drop 1)
  else line

/-- `revertedHunk` (part_003:1019-1040): revert every body line and swap the
orig/new coordinate pairs; the body is re-joined with a trailing newline. -/
def revertedHunk (hunk : Hunk) : Hunk :=
  { OrigStartLine := hunk.NewStartLine
    OrigLines := hunk.NewLines
    OrigNoNewlineAt := hunk.OrigNoNewlineAt
    NewStartLine := hunk.OrigStartLine
    NewLines := hunk.OrigLines
    Section := hunk.Section
    StartPosition := hunk.StartPosition
    Body := joinNl ((splitNl hunk.Body).map revertedLine) ++ "\n" }

/-- `revertHunks` (part_003:1012-1016): revert every hunk of a file diff. -/
def revertHunks (diffFile : FileDiff) : FileDiff :=
  { diffFile with Hunks := diffFile.Hunks.map revertedHunk }

/-- A chunk of the line-diff collaborator (kylelemons/godebug `diff.Chunk`):
a chunk never has both added and deleted lines, and equal lines always
follow any added or deleted lines. -/
structure Chunk where
  Added : List String
  Deleted : List String
  Equal : List String
deriving DecidableEq

/-- A longest common subsequence of two line lists (classical recursion,
phrased with a fuel argument; the collaborator contract only requires some
shortest-edit-script decomposition).  Each recursive call shortens the
combined length by at least one, so fuel `xs.length + ys.length` always
suffices and the zero-fuel branch is never taken by `lcs`. -/
def lcsF : Nat → List String → List String → List String
  | 0, _, _ => []
  | _ + 1, [], _ => []
  | _ + 1, _ :: _, [] => []
  | fuel + 1, x :: xs, y :: ys =>
    if x = y then x :: lcsF fuel xs ys
    else
      let l1 := lcsF fuel (x :: xs) ys
      let l2 := lcsF fuel xs (y :: ys)
      if l1.length < l2.length then l2 else l1

/-- A longest common subsequence of two line lists. -/
def lcs (a b : List String) : List String :=
  lcsF (a.length + b.length) a b

/-- Walk two line lists along a common subsequence, emitting one-sided
deleted/added chunks at each divergence and singleton equal chunks at each
common line. -/
def rawChunks : List String → List String → List String → List Chunk
  | xs, ys, [] =>
    (if xs.isEmpty then [] else [⟨[], xs, []⟩])
      ++ (if ys.isEmpty then [] else [⟨ys, [], []⟩])
  | xs, ys, z :: zs =>
    let dx := xs.takeWhile (fun w => w ≠ z)
    let xs' := (xs.dropWhile (fun w => w ≠ z)).drop 1
    let dy := ys.takeWhile (fun w => w ≠ z)
    let ys' := (ys.dropWhile (fun w => w ≠ z)).drop 1
    (if dx.isEmpty then [] else [⟨[], dx, []⟩])
      ++ (if dy.isEmpty then [] else [⟨dy, [], []⟩])
      ++ ⟨[], [], [z]⟩ :: rawChunks xs' ys' zs

/-- Is a chunk purely made of equal lines? -/
def isEqOnly (c : Chunk) : Bool :=
  c.Added.isEmpty && c.Deleted.isEmpty

/-- Merge adjacent equal-only chunks so that equal runs are maximal. -/
def mergeEqChunks : List Chunk → List Chunk
  | [] => []
  | c :: cs =>
    match mergeEqChunks cs with
    | [] => [c]
    | d :: ds =>
      if isEqOnly c && isEqOnly d then ⟨[], [], c.Equal ++ d.Equal⟩ :: ds
      else c :: d :: ds

/-- Modelled from the spec: the line-diff primitive `dbd.DiffChunks` of the
external collaborator kylelemons/godebug (not part of this repository).
Contract per the spec: it returns `{Added, Deleted, Equal}` chunks for two
ordered line sequences, a single chunk never contains both added and
deleted lines, and any shortest-edit-script variant is acceptable.
Deletions are emitted before the additions of the same divergence, and
equal runs are maximal. -/
def diffChunks (a b : List String) : List Chunk :=
  mergeEqChunks (rawChunks a b (lcs a b))

/-- Render chunks the way `interAddedLines` (part_003:925-936) does:
added lines with `+`, deleted lines with `-`, equal lines with a space. -/
def renderChunk (c : Chunk) : List String :=
  c.Added.map (fun l => "+" ++ l) ++ c.Deleted.map (fun l => "-" ++ l)
    ++ c.Equal.map (fun l => " " ++ l)

/-- Render a chunk list, chunk by chunk. -/
def renderChunks (cs : List Chunk) : List String :=
  (cs.map renderChunk).flatten

/-- `interAddedLines` (part_003:910-939): collect the maximal runs of added
lines at the front of both body remainders, line-diff them, and return the
rendered diff together with the remainders past the runs (the Go function
advances the indices `i`, `j` in place). -/
def interAddedLines (oldRem newRem : List String) :
    List String × List String × List String :=
  let oldAdded := (oldRem.takeWhile (fun l => startsWithCh l '+')).map goTail1
  let newAdded := (newRem.takeWhile (fun l => startsWithCh l '+')).map goTail1
  (renderChunks (diffChunks oldAdded newAdded),
   oldRem.dropWhile (fun l => startsWithCh l '+'),
   newRem.dropWhile (fun l => startsWithCh l '+'))

/-- `configureResultHunk` (part_003:943-1009): seed the merged hunk's
coordinates from the first and last hunks of each chain, zero the
no-newline offset, empty the section, keep the first old hunk's start
position, and return the initial anchor line `currentOrgI`.  The Go code
stores the one-byte placeholder `[]byte{0}` as the body. -/
def configureResultHunk (oldHunks newHunks : List Hunk) :
    Except GoErr (Hunk × Int) :=
  match oldHunks, newHunks with
  | [], _ => .error .emptyHunkSet
  | _, [] => .error .emptyHunkSet
  | firstOldHunk :: restOld, firstNewHunk :: restNew =>
    let lastOldHunk := (firstOldHunk :: restOld).getLast?.getD firstOldHunk
    let lastNewHunk := (firstNewHunk :: restNew).getLast?.getD firstNewHunk
    let (currentOrgI, origStart, newStart) :=
      if firstOldHunk.OrigStartLine < firstNewHunk.OrigStartLine then
        (firstOldHunk.OrigStartLine,
         firstOldHunk.NewStartLine,
         firstOldHunk.OrigStartLine
           + firstNewHunk.NewStartLine - firstNewHunk.OrigStartLine)
      else
        (firstNewHunk.OrigStartLine,
         firstNewHunk.OrigStartLine
           + firstOldHunk.NewStartLine - firstOldHunk.OrigStartLine,
         firstNewHunk.NewStartLine)
    let (origLines, newLines) :=
      if lastOldHunk.OrigStartLine + lastOldHunk.OrigLines
          > lastNewHunk.OrigStartLine + lastNewHunk.OrigLines then
        (lastOldHunk.NewStartLine + lastOldHunk.NewLines - origStart,
         lastNewHunk.NewStartLine + lastNewHunk.NewLines
           + lastOldHunk.OrigStartLine + lastOldHunk.OrigLines
           - lastNewHunk.OrigStartLine - lastNewHunk.OrigLines - newStart)
      else
        (lastOldHunk.NewStartLine + lastOldHunk.NewLines
           + lastNewHunk.OrigStartLine + lastNewHunk.OrigLines
           - lastOldHunk.OrigStartLine - lastOldHunk.OrigLines - origStart,
         lastNewHunk.NewStartLine + lastNewHunk.NewLines - newStart)
    .ok ({ OrigStartLine := origStart
           OrigLines := origLines
           OrigNoNewlineAt := 0
           NewStartLine := newStart
           NewLines := newLines
           Section := ""
           StartPosition := firstOldHunk.StartPosition
           Body := String.mk [Char.ofNat 0] },
         currentOrgI)

/-- Fuel bound for the merge walk: total number of body lines in both
chains, plus one. -/
def mergeFuel (oldHunks newHunks : List Hunk) : Nat :=
  ((oldHunks.map (fun h => (bodyLines h).length)).sum
    + (newHunks.map (fun h => (bodyLines h).length)).sum) + 1

/-- One combined open step of the merge walk (part_003:820-829): when no
hunk is open on a side and the anchor line has reached the next hunk's
start, that hunk's body is opened and the hunk is consumed from the queue. -/
def mergeOpen (cOrg : Int) (opened : Option (List String)) (queue : List Hunk) :
    Option (List String) × List Hunk :=
  match opened, queue with
  | none, h :: rest =>
    if cOrg = h.OrigStartLine then (some (bodyLines h), rest) else (none, queue)
  | _, _ => (opened, queue)

/-- The anchor-walk loop of `mergeOverlappingHunks` (part_003:817-895).
State: queues of not-yet-opened hunks, the currently open body remainders
(`none` models the Go index `-1`), the anchor line `currentOrgI`, and the
body accumulated so far.  A state in which both sides are closed but hunks
remain never changes again in Go, so it is modeled as `diverge`.  The fuel
only bounds the recursion; `mergeOverlappingHunks` passes enough of it. -/
def mergeLoop (fuel : Nat) (qo qn : List Hunk) (oo onn : Option (List String))
    (cOrg : Int) (acc : List String) : Except GoErr (List String) :=
  match fuel with
  | 0 => .error .fuelOut
  | fuel + 1 =>
    if qo.isEmpty && qn.isEmpty && oo.isNone && onn.isNone then .ok acc
    else
      let (oo₁, qo₁) := mergeOpen cOrg oo qo
      let (on₁, qn₁) := mergeOpen cOrg onn qn
      match oo₁, on₁ with
      | none, none => .error .diverge
      | some ob, none =>
        match ob with
        | [] => .error .runtimePanic
        | line :: obRest =>
          let cOrg' := if startsWithCh line '+' then cOrg else cOrg + 1
          mergeLoop fuel qo₁ qn₁
            (if obRest.isEmpty then none else some obRest) none
            cOrg' (acc ++ [revertedLine line])
      | none, some nb =>
        match nb with
        | [] => .error .runtimePanic
        | line :: nbRest =>
          let cOrg' := if startsWithCh line '+' then cOrg else cOrg + 1
          mergeLoop fuel qo₁ qn₁
            none (if nbRest.isEmpty then none else some nbRest)
            cOrg' (acc ++ [line])
      | some ob, some nb =>
        match ob, nb with
        | [], _ => .error .runtimePanic
        | _, [] => .error .runtimePanic
        | lo :: obRest, ln :: nbRest =>
          if startsWithCh lo '+' || startsWithCh ln '+' then
            let (res, ob', nb') := interAddedLines (lo :: obRest) (ln :: nbRest)
            mergeLoop fuel qo₁ qn₁
              (if ob'.isEmpty then none else some ob')
              (if nb'.isEmpty then none else some nb')
              cOrg (acc ++ res)
          else if lo.data.isEmpty || ln.data.isEmpty then .error .runtimePanic
          else if goTail1 lo ≠ goTail1 ln then .error .contentMismatch
          else
            let emitted :=
              if startsWithCh lo ' ' && startsWithCh ln ' ' then [lo]
              else if startsWithCh lo '-' && startsWithCh ln ' ' then
                [revertedLine lo]
              else if startsWithCh lo ' ' && startsWithCh ln '-' then [ln]
              else []
            mergeLoop fuel qo₁ qn₁
              (if obRest.isEmpty then none else some obRest)
              (if nbRest.isEmpty then none else some nbRest)
              (cOrg + 1) (acc ++ emitted)

/-- `mergeOverlappingHunks` (part_003:795-907): configure the result hunk,
run the anchor walk, and return the hunk with the joined body — or no hunk
at all when the merged body contains no `+`/`-` line. -/
def mergeOverlappingHunks (oldHunks newHunks : List Hunk) :
    Except GoErr (Option Hunk) :=
  match configureResultHunk oldHunks newHunks with
  | .error e => .error e
  | .ok (resultHunk, currentOrgI) =>
    match mergeLoop (mergeFuel oldHunks newHunks) oldHunks newHunks
        none none currentOrgI [] with
    | .error e => .error e
    | .ok newBody =>
      if newBody.any (fun l => !(startsWithCh l ' ')) then
        .ok (some { resultHunk with Body := joinNl newBody ++ "\n" })
      else .ok none

/-- The chain-extension loop of `findOverlappingHunkSet`
(part_003:771-788): extend with the next old hunk when its start lies in
the last new hunk's orig interval, else with the next new hunk when its
start lies in the last old hunk's orig interval, else stop; returns the
extensions together with the remaining queues. -/
def findOverlapExtF : Nat → Hunk → Hunk → List Hunk → List Hunk →
    List Hunk × List Hunk × List Hunk × List Hunk
  | 0, _, _, qo, qn => ([], [], qo, qn)
  | fuel + 1, lastOld, lastNew, qo, qn =>
    match qo, qn with
    | o :: qo', qn =>
      if lastNew.OrigStartLine ≤ o.OrigStartLine
          ∧ o.OrigStartLine < lastNew.OrigStartLine + lastNew.OrigLines then
        let r := findOverlapExtF fuel o lastNew qo' qn
        (o :: r.1, r.2.1, r.2.2.1, r.2.2.2)
      else
        match qn with
        | n :: qn' =>
          if lastOld.OrigStartLine ≤ n.OrigStartLine
              ∧ n.OrigStartLine < lastOld.OrigStartLine + lastOld.OrigLines then
            let r := findOverlapExtF fuel lastOld n (o :: qo') qn'
            (r.1, n :: r.2.1, r.2.2.1, r.2.2.2)
          else ([], [], o :: qo', qn)
        | [] => ([], [], o :: qo', qn)
    | [], n :: qn' =>
      if lastOld.OrigStartLine ≤ n.OrigStartLine
          ∧ n.OrigStartLine < lastOld.OrigStartLine + lastOld.OrigLines then
        let r := findOverlapExtF fuel lastOld n [] qn'
        (r.1, n :: r.2.1, r.2.2.1, r.2.2.2)
      else ([], [], [], n :: qn')
    | [], [] => ([], [], [], [])

/-- The chain extension with its exactly sufficient fuel: each recursive
call moves one hunk out of a queue, so `qo.length + qn.length` steps always
reach a stopping case and the zero-fuel branch only ever sees two empty
queues. -/
def findOverlapExt (lastOld lastNew : Hunk) (qo qn : List Hunk) :
    List Hunk × List Hunk × List Hunk × List Hunk :=
  findOverlapExtF (qo.length + qn.length) lastOld lastNew qo qn

/-- The hunk-iteration loop of `interFileDiff` (part_003:716-756): a whole
old hunk before the next new hunk is reverted and copied; a whole new hunk
before the next old hunk is copied; otherwise the overlapping chain is
collected and merged, the merged hunk being appended only when present.
After one side runs out, old hunks are drained reverted and new hunks are
drained as they are. -/
def interLoop (fuel : Nat) (oldHs newHs : List Hunk) (acc : List Hunk) :
    Except GoErr (List Hunk) :=
  match fuel with
  | 0 => .error .fuelOut
  | fuel + 1 =>
    match oldHs, newHs with
    | [], rest => .ok (acc ++ rest)
    | o :: os, [] => .ok (acc ++ (o :: os).map revertedHunk)
    | o :: os, n :: ns =>
      if o.OrigStartLine + o.OrigLines < n.OrigStartLine then
        interLoop fuel os (n :: ns) (acc ++ [revertedHunk o])
      else if n.OrigStartLine + n.OrigLines < o.OrigStartLine then
        interLoop fuel (o :: os) ns (acc ++ [n])
      else
        let r := findOverlapExt o n os ns
        match mergeOverlappingHunks (o :: r.1) (n :: r.2.1) with
        | .error e => .error e
        | .ok merged =>
          interLoop fuel r.2.2.1 r.2.2.2 (acc ++ merged.toList)

/-- `interFileDiff` (part_003:702-759): names and times come from the two
diffs' new sides, extended headers are dropped, and the hunks are produced
by the iteration loop. -/
def interFileDiff (oldFileDiff newFileDiff : FileDiff) : Except GoErr FileDiff :=
  match interLoop (oldFileDiff.Hunks.length + newFileDiff.Hunks.length + 1)
      oldFileDiff.Hunks newFileDiff.Hunks [] with
  | .error e => .error e
  | .ok hunks =>
    .ok { OrigName := oldFileDiff.NewName
          OrigTime := oldFileDiff.NewTime
          NewName := newFileDiff.NewName
          NewTime := newFileDiff.NewTime
          Extended := []
          Hunks := hunks }

/-- `contextLines = 2` (patchutils.go:468). -/
def contextLines : Nat := 2

/-- Is a chunk wholly empty? (used by the trimming loops of
`convertChunksIntoFileDiff`). -/
def chunkEmpty (c : Chunk) : Bool :=
  c.Added.isEmpty && c.Deleted.isEmpty && c.Equal.isEmpty

/-- Drop elements satisfying `p` from the end of a list (the second
trimming loop of `convertChunksIntoFileDiff`). -/
def dropEndWhile (p : α → Bool) (l : List α) : List α :=
  (l.reverse.dropWhile p).reverse

/-- Replace the last element of a list (the Go code clears
`chunks[last].Equal` in place). -/
def updateLast (f : α → α) : List α → List α
  | [] => []
  | [x] => [f x]
  | x :: y :: xs => x :: updateLast f (y :: xs)

/-- A hunk as the assembler constructs it: zero-valued section, start
position and no-newline offset, body joined with a trailing newline. -/
def mkAsmHunk (startO startN origLines newLines : Int) (body : List String) :
    Hunk :=
  { OrigStartLine := startO
    OrigLines := origLines
    OrigNoNewlineAt := 0
    NewStartLine := startN
    NewLines := newLines
    Section := ""
    StartPosition := 0
    Body := joinNl body ++ "\n" }

/-- The mutable locals of `convertChunksIntoFileDiff`: the 1-based cursors
`currentOldI`/`currentNewI`, the open hunk's start coordinates, its body so
far, and the hunks already emitted. -/
structure AsmState where
  cOld : Int
  cNew : Int
  startO : Int
  startN : Int
  body : List String
  hunks : List Hunk
deriving DecidableEq

/-- The per-chunk step of `convertChunksIntoFileDiff`
(patchutils.go:536-581): emit added lines with `+`, deleted lines with `-`;
an equal run longer than `2*contextLines+1` closes the open hunk with
`contextLines` trailing context lines and line counts
`cursor + contextLines + 1 - start`, skips the run, and opens a new hunk
anchored `contextLines` before the next change, seeded with the run's last
`contextLines + 1` lines; a shorter equal run is folded in as context. -/
def asmChunk (st : AsmState) (c : Chunk) : AsmState :=
  let st1 : AsmState :=
    { st with
      body := st.body ++ c.Added.map (fun l => "+" ++ l)
                ++ c.Deleted.map (fun l => "-" ++ l)
      cNew := st.cNew + c.Added.length
      cOld := st.cOld + c.Deleted.length }
  if 2 * contextLines + 1 < c.Equal.length then
    let hunks' :=
      if st1.body.isEmpty then st1.hunks
      else
        st1.hunks
          ++ [mkAsmHunk st1.startO st1.startN
                (st1.cOld + (contextLines : Int) + 1 - st1.startO)
                (st1.cNew + (contextLines : Int) + 1 - st1.startN)
                (st1.body ++ (c.Equal.take contextLines).map (fun l => " " ++ l))]
    { cOld := st1.cOld + c.Equal.length
      cNew := st1.cNew + c.Equal.length
      startO := st1.cOld + c.Equal.length - (contextLines : Int)
      startN := st1.cNew + c.Equal.length - (contextLines : Int)
      body := (c.Equal.drop (c.Equal.length - (contextLines + 1))).map
        (fun l => " " ++ l)
      hunks := hunks' }
  else
    { st1 with
      body := st1.body ++ c.Equal.map (fun l => " " ++ l)
      cOld := st1.cOld + c.Equal.length
      cNew := st1.cNew + c.Equal.length }

/-- The tail of `convertChunksIntoFileDiff` (patchutils.go:519-595) after
the leading-equal chunk has been folded into the initial state `st1` and
the remaining chunks are `l2`: reserve the first `contextLines` equal
lines of the final chunk as trailing context, fold the chunks, and close
the final hunk with line counts `cursor - start`. -/
def asmFinish (fileDiff : FileDiff) (st1 : AsmState) (l2 : List Chunk) :
    FileDiff :=
  let lastC := l2.getLast?.getD ⟨[], [], []⟩
  let stl :=
    if lastC.Equal.isEmpty then (([] : List String), l2)
    else ((lastC.Equal.take contextLines).map (fun l => " " ++ l),
          updateLast (fun c => { c with Equal := [] }) l2)
  let st2 := stl.2.foldl asmChunk st1
  let st3 : AsmState :=
    { st2 with
      body := st2.body ++ stl.1
      cOld := st2.cOld + stl.1.length
      cNew := st2.cNew + stl.1.length }
  { fileDiff with
    Hunks := fileDiff.Hunks ++ st3.hunks
      ++ [mkAsmHunk st3.startO st3.startN (st3.cOld - st3.startO)
            (st3.cNew - st3.startN) st3.body] }

/-- `convertChunksIntoFileDiff` (patchutils.go:471-595): trim empty chunks,
return unchanged on an all-equal input, keep at most `contextLines` leading
context lines from a leading all-equal chunk, reserve the first
`contextLines` equal lines of the final chunk as trailing context, fold the
chunks, and close the final hunk with line counts `cursor - start`. -/
def convertChunksIntoFileDiff (chunks0 : List Chunk) (fileDiff : FileDiff) :
    FileDiff :=
  let chunks1 := chunks0.dropWhile chunkEmpty
  let chunks2 := dropEndWhile chunkEmpty chunks1
  if chunks2.length = 1 ∧ (chunks2.headD ⟨[], [], []⟩).Added.isEmpty
      ∧ (chunks2.headD ⟨[], [], []⟩).Deleted.isEmpty then
    fileDiff
  else if chunks2.isEmpty then fileDiff
  else
    let st0 : AsmState := ⟨1, 1, 1, 1, [], []⟩
    let stc :=
      match chunks2 with
      | c :: rest =>
        if c.Added.isEmpty && c.Deleted.isEmpty then
          let n := c.Equal.length
          if contextLines < n then
            (AsmState.mk (1 + (n : Int)) (1 + (n : Int))
              (1 + (n : Int) - (contextLines : Int))
              (1 + (n : Int) - (contextLines : Int))
              ((c.Equal.drop (n - contextLines)).map (fun l => " " ++ l)) [],
             rest)
          else
            (AsmState.mk (1 + (n : Int)) (1 + (n : Int)) 1 1
              (c.Equal.map (fun l => " " ++ l)) [],
             rest)
        else (st0, chunks2)
      | [] => (st0, chunks2)
    asmFinish fileDiff stc.1 stc.2

/-- Go byte-wise lexicographic string order (`<` on `string`), on the
character level (the names in play are ASCII). -/
def lexLt : List Char → List Char → Bool
  | [], [] => false
  | [], _ :: _ => true
  | _ :: _, [] => false
  | a :: as1, b :: bs1 =>
    if a.val < b.val then true
    else if b.val < a.val then false
    else lexLt as1 bs1

/-- Go `a < b` on strings. -/
def ltStr (a b : String) : Bool :=
  lexLt a.data b.data

/-- Stable insertion for `sort.SliceStable(..., OrigName <)`. -/
def insertByName (d : FileDiff) : List FileDiff → List FileDiff
  | [] => [d]
  | e :: es =>
    if ltStr e.OrigName d.OrigName then e :: insertByName d es
    else d :: e :: es

/-- The stable sort by `OrigName` that `InterDiff` applies to both parsed
diff lists (part_003:41-46). -/
def sortByName : List FileDiff → List FileDiff
  | [] => []
  | d :: ds => insertByName d (sortByName ds)

/-- Split a character list at a separator (for the filepath helpers). -/
def splitOnChar (c : Char) : List Char → List (List Char)
  | [] => [[]]
  | a :: as1 =>
    if a = c then [] :: splitOnChar c as1
    else
      match splitOnChar c as1 with
      | [] => [[a]]
      | l :: ls => (a :: l) :: ls

/-- `filepath.Base` for the slash-free or plainly slash-separated paths the
library passes it. -/
def baseOf (p : String) : String :=
  if p.data.isEmpty then "."
  else String.mk ((p.data.reverse.takeWhile (fun c => c ≠ '/')).reverse)

/-- `filepath.Dir` for the same class of paths. -/
def dirOf (p : String) : String :=
  if p.data.contains '/' then
    let pre := ((p.data.reverse.dropWhile (fun c => c ≠ '/')).drop 1).reverse
    if pre.isEmpty then "/" else String.mk pre
  else "."

/-- One element of `InterDiff`'s output: either an `Only in dir: base` line
or a printed merged file diff. -/
inductive InterItem where
  | onlyIn (dir base : String)
  | changed (fd : FileDiff)
deriving DecidableEq

/-- `interPrintSingleFileDiff` (part_003:684-698) at the item level: a file
diff whose new name is empty prints as an `Only in` line, any other prints
as itself. -/
def interSingleItem (d : FileDiff) : InterItem :=
  if d.NewName = "" then .onlyIn (dirOf d.OrigName) (baseOf d.OrigName)
  else .changed d

/-- The file-pairing walk of `InterDiff` (part_003:50-131) at the item
level: equal orig names are either both-deleted (skipped), one-side-deleted
(an `Only in` line), or merged through `interFileDiff`; a name present on
one side only yields its single-file item, the old side being reverted
first; the drains at the end mirror part_003:114-131 (which do not revert).
The Go code keys the per-file results by orig name and concatenates them in
sorted key order; the items here carry the same contents. -/
def interItemsLoopF : Nat → List FileDiff → List FileDiff →
    Except GoErr (List InterItem)
  | 0, _, _ => .error .fuelOut
  | fuel + 1, a, b =>
    match a, b with
    | [], [] => .ok []
    | [], n :: ns =>
      match interItemsLoopF fuel [] ns with
      | .error e => .error e
      | .ok items => .ok (interSingleItem n :: items)
    | o :: os, [] =>
      match interItemsLoopF fuel os [] with
      | .error e => .error e
      | .ok items => .ok (interSingleItem o :: items)
    | o :: os, n :: ns =>
      if o.OrigName = n.OrigName then
        if o.NewName = "" && n.NewName = "" then interItemsLoopF fuel os ns
        else if o.NewName = "" then
          match interItemsLoopF fuel os ns with
          | .error e => .error e
          | .ok items =>
            .ok (.onlyIn (dirOf n.NewName) (baseOf n.NewName) :: items)
        else if n.NewName = "" then
          match interItemsLoopF fuel os ns with
          | .error e => .error e
          | .ok items =>
            .ok (.onlyIn (dirOf o.NewName) (baseOf o.NewName) :: items)
        else
          match interFileDiff o n with
          | .error e => .error e
          | .ok fd =>
            match interItemsLoopF fuel os ns with
            | .error e => .error e
            | .ok items => .ok (.changed fd :: items)
      else if ltStr o.OrigName n.OrigName then
        match interItemsLoopF fuel os (n :: ns) with
        | .error e => .error e
        | .ok items => .ok (interSingleItem (revertHunks o) :: items)
      else
        match interItemsLoopF fuel (o :: os) ns with
        | .error e => .error e
        | .ok items => .ok (interSingleItem n :: items)

/-- The pairing walk with its exactly sufficient fuel: each recursive call
drops at least one file diff, so `a.length + b.length + 1` steps always
reach the empty-empty case and the zero-fuel branch is never taken. -/
def interItemsLoop (a b : List FileDiff) : Except GoErr (List InterItem) :=
  interItemsLoopF (a.length + b.length + 1) a b

/-- `InterDiff` (part_003:23-149) after parsing, at the item level: reject
empty diff files, sort both sides stably by orig name, and run the pairing
walk. -/
def interDiffItems (oldFileDiffs newFileDiffs : List FileDiff) :
    Except GoErr (List InterItem) :=
  if oldFileDiffs.isEmpty then .error .emptyDiffFile
  else if newFileDiffs.isEmpty then .error .emptyDiffFile
  else interItemsLoop (sortByName oldFileDiffs) (sortByName newFileDiffs)

/-- A well-formed body line: nonempty, newline-free, prefixed by one of
` `, `+`, `-`. -/
def validLine (l : String) : Bool :=
  !l.data.isEmpty
    && (l.data.head? == some ' ' || l.data.head? == some '+'
          || l.data.head? == some '-')
    && !(l.data.contains '\n')

/-- A well-formed hunk body in the normal form (no trailing newline, every
line valid). -/
def wfHunkBody (h : Hunk) : Bool :=
  (splitNl h.Body).all validLine

/-- Number of anchor lines in a body-line list (prefix ` ` or `-`; every
non-`+` line consumes one line of the original). -/
def anchorsOf (ls : List String) : Nat :=
  (ls.filter (fun l => !(startsWithCh l '+'))).length

/-- Number of output lines in a body-line list (prefix ` ` or `+`). -/
def newsOf (ls : List String) : Nat :=
  (ls.filter (fun l => startsWithCh l '+' || startsWithCh l ' ')).length

/-- Number of anchor lines of a hunk. -/
def hunkAnchors (h : Hunk) : Nat :=
  anchorsOf (bodyLines h)

/-- Number of output lines of a hunk. -/
def hunkNews (h : Hunk) : Nat :=
  newsOf (bodyLines h)

/-- Well-formedness of a hunk chain for application: bodies valid, hunks
ordered and non-overlapping in original coordinates (`lb` is the least
admissible start), and the new-side starts consistent with the cumulative
line-count drift `delta`. -/
def chainWF : Int → Int → List Hunk → Bool
  | _, _, [] => true
  | lb, delta, h :: hs =>
    wfHunkBody h && decide (lb ≤ h.OrigStartLine)
      && decide (h.NewStartLine = h.OrigStartLine + delta)
      && chainWF (h.OrigStartLine + (hunkAnchors h : Int))
           (delta + (hunkNews h : Int) - (hunkAnchors h : Int)) hs

/-- Every hunk's anchor span ends strictly before the last of the `len`
split source segments (for a newline-terminated source the last segment is
the empty string after the final newline, which well-formed diffs never
touch). -/
def spansOk (len : Nat) (hs : List Hunk) : Bool :=
  hs.all (fun h => decide (h.OrigStartLine + (hunkAnchors h : Int) ≤ (len : Int)))

/-- Hunks ordered by orig start and non-overlapping in orig coordinates,
with nonnegative orig line counts (the §3 data-model invariant used by the
interdiff driver). -/
def hunksSeparated : Int → List Hunk → Bool
  | _, [] => true
  | lb, h :: hs =>
    decide (lb ≤ h.OrigStartLine) && decide (0 ≤ h.OrigLines)
      && hunksSeparated (h.OrigStartLine + h.OrigLines) hs

/-- The §3 ordering invariant for a whole file diff. -/
def wfFileDiffHunks (fd : FileDiff) : Bool :=
  match fd.Hunks with
  | [] => true
  | h :: hs =>
    decide (0 ≤ h.OrigLines)
      && hunksSeparated (h.OrigStartLine + h.OrigLines) hs

/-- Payloads of the lines a rendered diff attributes to the original side
(prefix ` ` or `-`). -/
def origPayloads (ls : List String) : List String :=
  (ls.filter (fun l => startsWithCh l ' ' || startsWithCh l '-')).map goTail1

/-- Payloads of the lines a rendered diff attributes to the new side
(prefix ` ` or `+`). -/
def newPayloads (ls : List String) : List String :=
  (ls.filter (fun l => startsWithCh l '+' || startsWithCh l ' ')).map goTail1

/-- Payloads of the context lines of a rendered diff. -/
def ctxPayloads (ls : List String) : List String :=
  (ls.filter (fun l => startsWithCh l ' ')).map goTail1

/-- Payloads of the anchor lines as the applier classifies them (every
line not prefixed `+`). -/
def anchorPayloads (ls : List String) : List String :=
  (ls.filter (fun l => !(startsWithCh l '+'))).map goTail1

/-- Is a body line a context line? -/
def isContextLine (l : String) : Bool :=
  startsWithCh l ' '

/-- Number of leading context lines of a hunk body. -/
def leadingCtx (h : Hunk) : Nat :=
  ((bodyLines h).takeWhile isContextLine).length

/-- Number of trailing context lines of a hunk body. -/
def trailingCtx (h : Hunk) : Nat :=
  ((bodyLines h).reverse.takeWhile isContextLine).length

/-- A one-sided change chunk (no equal lines, adds or deletes but not
both) — the shape the line-diff collaborator produces. -/
def isChangeChunk (c : Chunk) : Bool :=
  c.Equal.isEmpty && (!c.Added.isEmpty || !c.Deleted.isEmpty)
    && (c.Added.isEmpty || c.Deleted.isEmpty)

/-- A pure equal-run chunk. -/
def isEqChunk (c : Chunk) : Bool :=
  c.Added.isEmpty && c.Deleted.isEmpty && !c.Equal.isEmpty

/-- The chunk-sequence shape of the line-diff collaborator: every chunk is
a one-sided change chunk or a nonempty equal run, and equal runs are
maximal (no two adjacent). -/
def asmShape : List Chunk → Bool
  | [] => true
  | [c] => isChangeChunk c || isEqChunk c
  | c :: d :: rest =>
    (isChangeChunk c || isEqChunk c) && !(isEqChunk c && isEqChunk d)
      && asmShape (d :: rest)

/-- No equal run before the last chunk exceeds `2*contextLines+1` lines
(so the assembler never splits a hunk). -/
def noSplitEq : List Chunk → Bool
  | [] => true
  | [_] => true
  | c :: d :: rest => decide (c.Equal.length ≤ 2 * contextLines + 1) && noSplitEq (d :: rest)

/-- Does a chunk carry a change? -/
def chunkHasChange (c : Chunk) : Bool :=
  !c.Added.isEmpty || !c.Deleted.isEmpty

/-- The body lines one assembler step appends for a chunk it does not
split on: added lines, deleted lines, then the equal run as context. -/
def asmRender (c : Chunk) : List String :=
  c.Added.map (fun l => "+" ++ l) ++ c.Deleted.map (fun l => "-" ++ l)
    ++ c.Equal.map (fun l => " " ++ l)

deriving instance DecidableEq for Except

/-- A hunk literal helper for concrete instances (section empty, start
position 7, no no-newline offset). -/
def mkHunk (os ol ns nl : Int) (body : List String) : Hunk :=
  { OrigStartLine := os, OrigLines := ol, OrigNoNewlineAt := 0,
    NewStartLine := ns, NewLines := nl, Section := "", StartPosition := 7,
    Body := joinNl body }

/-- A file-diff literal helper for concrete instances. -/
def mkFileDiff (hs : List Hunk) : FileDiff :=
  { OrigName := "f", OrigTime := none, NewName := "f", NewTime := none,
    Extended := [], Hunks := hs }

/-- Ten-line source for the interdiff counterexample. -/
def exSrc10 : String := "a\nb\nc\nd\ne\nf\ng\nh\ni\nj\n"

/-- Old diff of the interdiff counterexample: delete line 2 (`b`). -/
def exOldFd : FileDiff := mkFileDiff [mkHunk 1 4 1 3 [" a", "-b", " c", " d"]]

/-- New diff of the interdiff counterexample: replace line 8 (`h` with `H`). -/
def exNewFd : FileDiff :=
  mkFileDiff [mkHunk 6 5 6 5 [" f", " g", "-h", "+H", " i", " j"]]

/-- Clean-context diff deleting the final line of a source that has no
trailing newline (the revert round-trip counterexample). -/
def exC2Fd : FileDiff := mkFileDiff [mkHunk 1 2 1 1 [" u", "-x"]]

/-- The E4 old hunk: insert `A`, `B` after line 5. -/
def exE4Old : Hunk := mkHunk 5 1 5 3 [" L5", "+A", "+B"]

/-- The E4 new hunk: insert `A`, `C` after line 5. -/
def exE4New : Hunk := mkHunk 5 1 5 3 [" L5", "+A", "+C"]

/-- The merge of the E4 hunks as the merger returns it (body joined with a
trailing newline). -/
def exE4Merged : Hunk :=
  { OrigStartLine := 5, OrigLines := 3, OrigNoNewlineAt := 0,
    NewStartLine := 5, NewLines := 3, Section := "", StartPosition := 7,
    Body := " L5\n A\n-B\n+C\n" }

/-- Anchor-payload mismatch pair for the merge walk. -/
def exC4Old : Hunk := mkHunk 5 1 5 1 [" x"]

/-- Anchor-payload mismatch pair for the merge walk. -/
def exC4New : Hunk := mkHunk 5 1 5 1 [" y"]

/-- A clean-context hunk that advances past the end of a one-line source. -/
def exC8Fd : FileDiff := mkFileDiff [mkHunk 1 2 1 2 [" a", " b"]]

/-- A count-preserving single-hunk old diff: replace line 2 (`b` with
`B`). -/
def exC1OldOk : FileDiff := mkFileDiff [mkHunk 2 1 2 1 ["-b", "+B"]]

/-- The file diff `interFileDiff exOldFd exNewFd` computes: the old hunk
reverted, the new hunk verbatim at its unshifted position. -/
def exC1Inter : FileDiff :=
  { OrigName := "f", OrigTime := none, NewName := "f", NewTime := none,
    Extended := [],
    Hunks := [revertedHunk (mkHunk 1 4 1 3 [" a", "-b", " c", " d"]),
              mkHunk 6 5 6 5 [" f", " g", "-h", "+H", " i", " j"]] }

/-- Chunk input whose interior equal run of six lines makes the assembler
split hunks. -/
def exSplitChunks : List Chunk :=
  [⟨[], ["X1"], []⟩, ⟨["Y1"], [], []⟩,
   ⟨[], [], ["e1", "e2", "e3", "e4", "e5", "e6"]⟩,
   ⟨[], ["X2"], []⟩, ⟨["Y2"], [], []⟩]

/-- An empty target file diff for the assembler. -/
def exEmptyFd : FileDiff :=
  { OrigName := "o", OrigTime := none, NewName := "n", NewTime := none,
    Extended := [], Hunks := [] }

/-! ## Basic facts about the newline split and join -/

theorem data_mk (l : List Char) : (String.mk l).data = l := rfl

theorem mk_data (s : String) : String.mk s.data = s := rfl

theorem data_append (a b : String) : (a ++ b).data = a.data ++ b.data := by
  cases a; cases b; rfl

theorem splitNlChar_ne_nil (l : List Char) : splitNlChar l ≠ [] := by
  induction l with
  | nil => simp [splitNlChar]
  | cons c cs ih =>
    simp only [splitNlChar]
    split
    · simp
    · cases h : splitNlChar cs with
      | nil => simp
      | cons x xs => simp

theorem splitNlChar_noNl (l : List Char) :
    ∀ x ∈ splitNlChar l, '\n' ∉ x := by
  induction l with
  | nil => simp [splitNlChar]
  | cons c cs ih =>
    simp only [splitNlChar]
    split
    · intro x hx
      rcases List.mem_cons.mp hx with h | h
      · simp [h]
      · exact ih x h
    · rename_i hc
      cases h : splitNlChar cs with
      | nil => exact absurd h (splitNlChar_ne_nil cs)
      | cons y ys =>
        intro x hx
        rcases List.mem_cons.mp hx with h1 | h1
        · subst h1
          intro hmem
          rcases List.mem_cons.mp hmem with h2 | h2
          · exact hc h2.symm
          · exact (ih y (h ▸ List.mem_cons_self y ys)) h2
        · exact ih x (h ▸ List.mem_cons_of_mem y h1)

theorem splitNlChar_of_noNl (l : List Char) (h : '\n' ∉ l) :
    splitNlChar l = [l] := by
  induction l with
  | nil => rfl
  | cons c cs ih =>
    simp only [List.mem_cons, not_or] at h
    simp only [splitNlChar,
      if_neg (show ¬ c = '\n' from fun hc => h.1 hc.symm), ih h.2]

theorem splitNlChar_append_cons (a r : List Char) (h : '\n' ∉ a) :
    splitNlChar (a ++ '\n' :: r) = a :: splitNlChar r := by
  induction a with
  | nil => simp [splitNlChar]
  | cons c cs ih =>
    simp only [List.mem_cons, not_or] at h
    simp only [List.cons_append, splitNlChar,
      if_neg (show ¬ c = '\n' from fun hc => h.1 hc.symm)]
    rw [show cs.append ('\n' :: r) = cs ++ '\n' :: r from rfl, ih h.2]

theorem joinNlChar_cons_cons (a b : List Char) (r : List (List Char)) :
    joinNlChar (a :: b :: r) = a ++ '\n' :: joinNlChar (b :: r) := rfl

theorem join_split_char (l : List Char) : joinNlChar (splitNlChar l) = l := by
  induction l with
  | nil => rfl
  | cons c cs ih =>
    simp only [splitNlChar]
    split
    · rename_i hc
      cases h : splitNlChar cs with
      | nil => exact absurd h (splitNlChar_ne_nil cs)
      | cons x xs =>
        rw [joinNlChar_cons_cons]
        rw [h] at ih
        simp [ih, hc]
    · cases h : splitNlChar cs with
      | nil => exact absurd h (splitNlChar_ne_nil cs)
      | cons x xs =>
        rw [h] at ih
        cases xs with
        | nil => simpa [joinNlChar] using congrArg (c :: ·) ih
        | cons y ys =>
          rw [joinNlChar_cons_cons] at ih ⊢
          simpa using congrArg (c :: ·) ih

theorem split_join_char (ls : List (List Char)) (hne : ls ≠ [])
    (h : ∀ x ∈ ls, '\n' ∉ x) :
    splitNlChar (joinNlChar ls) = ls := by
  induction ls with
  | nil => exact absurd rfl hne
  | cons a rest ih =>
    cases rest with
    | nil =>
      simpa [joinNlChar] using splitNlChar_of_noNl a (h a (by simp))
    | cons b r =>
      rw [joinNlChar_cons_cons,
        splitNlChar_append_cons _ _ (h a (by simp))]
      rw [ih (by simp) (fun x hx => h x (List.mem_cons_of_mem a hx))]

theorem joinNl_splitNl (s : String) : joinNl (splitNl s) = s := by
  show String.mk (joinNlChar (((splitNlChar s.data).map String.mk).map String.data)) = s
  rw [List.map_map]
  have : (String.data ∘ String.mk) = id := rfl
  rw [this, List.map_id, join_split_char]

theorem splitNl_ne_nil (s : String) : splitNl s ≠ [] := by
  intro h
  have := splitNlChar_ne_nil s.data
  simp [splitNl] at h
  exact this h

theorem splitNl_noNl (s : String) : ∀ x ∈ splitNl s, '\n' ∉ x.data := by
  intro x hx
  simp only [splitNl, List.mem_map] at hx
  obtain ⟨l, hl, rfl⟩ := hx
  exact splitNlChar_noNl s.data l hl

theorem splitNl_joinNl (xs : List String) (hne : xs ≠ [])
    (h : ∀ x ∈ xs, '\n' ∉ x.data) : splitNl (joinNl xs) = xs := by
  show ((splitNlChar (joinNlChar (xs.map String.data))).map String.mk) = xs
  rw [split_join_char (xs.map String.data) (by simpa using hne)
    (by intro x hx; simp only [List.mem_map] at hx
        obtain ⟨y, hy, rfl⟩ := hx; exact h y hy)]
  rw [List.map_map]
  have : (String.mk ∘ String.data) = id := by
    funext s; exact mk_data s
  rw [this, List.map_id]

theorem joinNlChar_ne_nil_of_head (a : List Char) (r : List (List Char))
    (ha : a ≠ []) : joinNlChar (a :: r) ≠ [] := by
  cases r with
  | nil => simpa [joinNlChar] using ha
  | cons b r' =>
    rw [joinNlChar_cons_cons]
    simp

theorem joinNlChar_getLast_ne_nl (ls : List (List Char)) (hne : ls ≠ [])
    (h : ∀ x ∈ ls, x ≠ [] ∧ '\n' ∉ x) :
    (joinNlChar ls).getLast? ≠ some '\n' := by
  induction ls with
  | nil => exact absurd rfl hne
  | cons a rest ih =>
    cases rest with
    | nil =>
      obtain ⟨h1, h2⟩ := h a (by simp)
      simp only [joinNlChar]
      rw [List.getLast?_eq_getLast a h1]
      intro hc
      rw [Option.some.injEq] at hc
      have hm := List.getLast_mem h1
      rw [hc] at hm
      exact h2 hm
    | cons b r =>
      rw [joinNlChar_cons_cons]
      have hb : joinNlChar (b :: r) ≠ [] :=
        joinNlChar_ne_nil_of_head b r (h b (by simp)).1
      rw [List.getLast?_append]
      cases hj : joinNlChar (b :: r) with
      | nil => exact absurd hj hb
      | cons y ys =>
        have hrec := ih (by simp) (fun x hx => h x (List.mem_cons_of_mem a hx))
        rw [hj] at hrec
        rw [List.getLast?_cons_cons]
        cases hg : (y :: ys).getLast? with
        | none => simp at hg
        | some z =>
          rw [hg] at hrec
          simp only [Option.or_some]
          exact hrec

theorem trimNl_of_getLast_ne (s : String) (h : s.data.getLast? ≠ some '\n') :
    trimNl s = s := by
  show String.mk (trimNlChar s.data) = s
  rw [trimNlChar, if_neg h, mk_data]

theorem trimNl_joinNl (xs : List String) (hne : xs ≠ [])
    (hv : ∀ x ∈ xs, x.data ≠ [] ∧ '\n' ∉ x.data) :
    trimNl (joinNl xs) = joinNl xs := by
  apply trimNl_of_getLast_ne
  show (joinNlChar (xs.map String.data)).getLast? ≠ some '\n'
  apply joinNlChar_getLast_ne_nl _ (by simpa using hne)
  intro x hx
  simp only [List.mem_map] at hx
  obtain ⟨y, hy, rfl⟩ := hx
  exact hv y hy

theorem validLine_spec (l : String) (h : validLine l = true) :
    l.data ≠ [] ∧ '\n' ∉ l.data
      ∧ (l.data.head? = some ' ' ∨ l.data.head? = some '+'
          ∨ l.data.head? = some '-') := by
  simp only [validLine, Bool.and_eq_true, Bool.or_eq_true, Bool.not_eq_true',
    beq_iff_eq] at h
  obtain ⟨⟨hne, hpre⟩, hnl⟩ := h
  refine ⟨?_, ?_, by tauto⟩
  · intro hc
    rw [hc] at hne
    simp at hne
  · intro hc
    have hcontains : l.data.contains '\n' = true :=
      List.contains_iff_exists_mem_beq.mpr ⟨'\n', hc, by simp⟩
    rw [hcontains] at hnl
    exact absurd hnl (by simp)

/-! ## Facts about the patch applier -/

theorem goIndex_ok {xs : List String} {i : Int} {s : String}
    (h : goIndex xs i = .ok s) :
    0 ≤ i ∧ i < (xs.length : Int) ∧ s = xs.getD i.toNat "" := by
  unfold goIndex at h
  split at h
  · rename_i hc
    exact ⟨hc.1, hc.2, by simpa using h.symm⟩
  · simp at h

theorem goSlice_ok {xs : List String} {lo hi : Int} {out : List String}
    (h : goSlice xs lo hi = .ok out) :
    0 ≤ lo ∧ lo ≤ hi ∧ hi ≤ (xs.length : Int)
      ∧ out = (xs.drop lo.toNat).take (hi - lo).toNat := by
  unfold goSlice at h
  split at h
  · rename_i hc
    exact ⟨hc.1, hc.2.1, hc.2.2, by simpa using h.symm⟩
  · simp at h

theorem goSliceFrom_ok {xs : List String} {lo : Int} {out : List String}
    (h : goSliceFrom xs lo = .ok out) :
    0 ≤ lo ∧ lo ≤ (xs.length : Int) ∧ out = xs.drop lo.toNat := by
  unfold goSliceFrom at h
  split at h
  · rename_i hc
    exact ⟨hc.1, hc.2, by simpa using h.symm⟩
  · simp at h

theorem anchorsOf_cons_plus {l : String} (h : startsWithCh l '+' = true)
    (rest : List String) : anchorsOf (l :: rest) = anchorsOf rest := by
  simp [anchorsOf, List.filter_cons, h]

theorem anchorsOf_cons_anchor {l : String} (h : startsWithCh l '+' = false)
    (rest : List String) : anchorsOf (l :: rest) = anchorsOf rest + 1 := by
  simp [anchorsOf, List.filter_cons, h]

theorem newPayloads_cons_plus {l : String} (h : startsWithCh l '+' = true)
    (rest : List String) :
    newPayloads (l :: rest) = goTail1 l :: newPayloads rest := by
  simp [newPayloads, List.filter_cons, h]

theorem newPayloads_cons_space {l : String} (h : startsWithCh l ' ' = true)
    (rest : List String) :
    newPayloads (l :: rest) = goTail1 l :: newPayloads rest := by
  simp [newPayloads, List.filter_cons, h]

theorem newPayloads_cons_other {l : String} (h1 : startsWithCh l '+' = false)
    (h2 : startsWithCh l ' ' = false) (rest : List String) :
    newPayloads (l :: rest) = newPayloads rest := by
  simp [newPayloads, List.filter_cons, h1, h2]

theorem anchorPayloads_cons_plus {l : String} (h : startsWithCh l '+' = true)
    (rest : List String) :
    anchorPayloads (l :: rest) = anchorPayloads rest := by
  simp [anchorPayloads, List.filter_cons, h]

theorem anchorPayloads_cons_anchor {l : String}
    (h : startsWithCh l '+' = false) (rest : List String) :
    anchorPayloads (l :: rest) = goTail1 l :: anchorPayloads rest := by
  simp [anchorPayloads, List.filter_cons, h]

theorem applyLines_ok_spec (src : List String) :
    ∀ (body : List String) (c c' : Int) (out : List String),
    applyLines src c body = .ok (c', out) →
    c' = c + (anchorsOf body : Int)
      ∧ out = newPayloads body
      ∧ anchorPayloads body = (src.drop (c - 1).toNat).take (anchorsOf body)
      ∧ (anchorsOf body ≠ 0 →
          1 ≤ c ∧ c + (anchorsOf body : Int) - 1 ≤ (src.length : Int))
      ∧ (body ≠ [] → c ≤ (src.length : Int)) := by
  intro body
  induction body with
  | nil =>
    intro c c' out h
    simp only [applyLines, Except.ok.injEq, Prod.mk.injEq] at h
    obtain ⟨h1, h2⟩ := h
    refine ⟨by rw [← h1]; simp [anchorsOf], by rw [← h2]; simp [newPayloads],
      by simp [anchorPayloads, anchorsOf], fun hh => absurd rfl hh, by simp⟩
  | cons line rest ih =>
    intro c c' out h
    simp only [applyLines] at h
    by_cases h1 : c > (src.length : Int)
    · rw [if_pos h1] at h; exact absurd h (by simp)
    rw [if_neg h1] at h
    push_neg at h1
    by_cases h2 : startsWithCh line '+'
    · rw [if_pos h2] at h
      cases hrec : applyLines src c rest with
      | error e => rw [hrec] at h; exact absurd h (by simp)
      | ok p =>
        obtain ⟨cr, outr⟩ := p
        rw [hrec] at h
        simp only [Except.ok.injEq, Prod.mk.injEq] at h
        obtain ⟨hc', hout⟩ := h
        obtain ⟨ih1, ih2, ih3, ih4, _⟩ := ih c cr outr hrec
        rw [anchorsOf_cons_plus h2, newPayloads_cons_plus h2,
          anchorPayloads_cons_plus h2]
        exact ⟨hc' ▸ ih1, hout ▸ (by rw [ih2]), ih3, ih4, fun _ => h1⟩
    · rw [if_neg h2] at h
      by_cases h3 : line.data.isEmpty
      · rw [if_pos h3] at h; exact absurd h (by simp)
      rw [if_neg h3] at h
      cases hi : goIndex src (c - 1) with
      | error e => rw [hi] at h; exact absurd h (by simp)
      | ok s =>
        rw [hi] at h
        dsimp only at h
        obtain ⟨hge, hlt, hs⟩ := goIndex_ok hi
        by_cases h5 : goTail1 line ≠ s
        · rw [if_pos h5] at h; exact absurd h (by simp)
        rw [if_neg h5] at h
        push_neg at h5
        cases hrec : applyLines src (c + 1) rest with
        | error e => rw [hrec] at h; exact absurd h (by simp)
        | ok p =>
          obtain ⟨cr, outr⟩ := p
          rw [hrec] at h
          simp only [Except.ok.injEq, Prod.mk.injEq] at h
          obtain ⟨hc', hout⟩ := h
          obtain ⟨ih1, ih2, ih3, ih4, _⟩ := ih (c + 1) cr outr hrec
          have h2f : startsWithCh line '+' = false := by
            simpa using h2
          have hnlt : (c - 1).toNat < src.length := by omega
          have hdrop := List.drop_eq_getElem_cons hnlt
          have hgetd : src.getD (c - 1).toNat "" = src[(c - 1).toNat] := by
            rw [List.getD_eq_getElem?_getD, List.getElem?_eq_getElem hnlt,
              Option.getD_some]
          have htn : (c + 1 - 1).toNat = (c - 1).toNat + 1 := by omega
          refine ⟨?_, ?_, ?_, ?_, fun _ => h1⟩
          · rw [anchorsOf_cons_anchor h2f]
            omega
          · rw [← hout]
            by_cases h6 : startsWithCh line ' '
            · rw [if_pos h6, newPayloads_cons_space h6, ih2, h5]
            · have h6f : startsWithCh line ' ' = false := by simpa using h6
              rw [if_neg h6, newPayloads_cons_other h2f h6f, ih2]
          · rw [anchorPayloads_cons_anchor h2f, anchorsOf_cons_anchor h2f]
            rw [hdrop, List.take_succ_cons, ih3, htn, h5, hs, hgetd]
          · intro _
            rw [anchorsOf_cons_anchor h2f]
            by_cases ha : anchorsOf rest = 0
            · constructor
              · omega
              · rw [ha]; push_cast; omega
            · obtain ⟨iha, ihb⟩ := ih4 ha
              constructor
              · omega
              · push_cast; omega

theorem applyLines_build (src : List String) :
    ∀ (body : List String) (c : Int),
    (∀ l ∈ body, l.data ≠ []) →
    1 ≤ c →
    anchorPayloads body = (src.drop (c - 1).toNat).take (anchorsOf body) →
    c + (anchorsOf body : Int) ≤ (src.length : Int) →
    applyLines src c body = .ok (c + (anchorsOf body : Int), newPayloads body) := by
  intro body
  induction body with
  | nil =>
    intro c _ _ _ _
    simp [applyLines, anchorsOf, newPayloads]
  | cons line rest ih =>
    intro c hvalid hc hslice hbound
    simp only [applyLines]
    have ha0 : (0 : Int) ≤ (anchorsOf (line :: rest) : Int) := by positivity
    rw [if_neg (by omega : ¬ c > (src.length : Int))]
    by_cases h2 : startsWithCh line '+'
    · rw [if_pos h2]
      rw [anchorsOf_cons_plus h2] at hslice hbound ⊢
      rw [anchorPayloads_cons_plus h2] at hslice
      rw [ih c (fun l hl => hvalid l (List.mem_cons_of_mem line hl)) hc hslice
        hbound]
      rw [newPayloads_cons_plus h2]
    · have h2f : startsWithCh line '+' = false := by simpa using h2
      rw [if_neg h2]
      rw [if_neg (by simpa using hvalid line (by simp))]
      rw [anchorsOf_cons_anchor h2f] at hbound
      have hnlt : (c - 1).toNat < src.length := by omega
      have hdrop := List.drop_eq_getElem_cons hnlt
      have hgetd : src.getD (c - 1).toNat "" = src[(c - 1).toNat] := by
        rw [List.getD_eq_getElem?_getD, List.getElem?_eq_getElem hnlt,
          Option.getD_some]
      rw [anchorPayloads_cons_anchor h2f, anchorsOf_cons_anchor h2f, hdrop,
        List.take_succ_cons] at hslice
      have hhead : goTail1 line = src[(c - 1).toNat] :=
        (List.cons.injEq _ _ _ _ ▸ hslice).1
      have htail : anchorPayloads rest = (src.drop ((c - 1).toNat + 1)).take
          (anchorsOf rest) :=
        (List.cons.injEq _ _ _ _ ▸ hslice).2
      have hgi : goIndex src (c - 1) = .ok (src.getD (c - 1).toNat "") := by
        unfold goIndex
        rw [if_pos (by constructor <;> omega)]
      rw [hgi]
      dsimp only
      rw [if_neg (by rw [hgetd, hhead]; simp)]
      have htn : (c + 1 - 1).toNat = (c - 1).toNat + 1 := by omega
      rw [ih (c + 1) (fun l hl => hvalid l (List.mem_cons_of_mem line hl))
        (by omega) (by rw [htn]; exact htail) (by omega)]
      dsimp only
      rw [anchorsOf_cons_anchor h2f]
      by_cases h6 : startsWithCh line ' '
      · rw [if_pos h6, newPayloads_cons_space h6, hgetd, hhead]
        congr 1
        simp only [Prod.mk.injEq]
        exact ⟨by push_cast; omega, trivial⟩
      · have h6f : startsWithCh line ' ' = false := by simpa using h6
        rw [if_neg h6, newPayloads_cons_other h2f h6f]
        congr 1
        simp only [Prod.mk.injEq]
        exact ⟨by push_cast; omega, trivial⟩

/-! ## The inverter on well-formed bodies -/

theorem revertedLine_data_plus {l : String} (h : startsWithCh l '+' = true) :
    (revertedLine l).data = '-' :: l.data.drop 1 := by
  rw [revertedLine, if_pos h]

theorem revertedLine_data_minus {l : String} (h1 : startsWithCh l '+' = false)
    (h2 : startsWithCh l '-' = true) :
    (revertedLine l).data = '+' :: l.data.drop 1 := by
  rw [revertedLine, if_neg (by simp [h1]), if_pos h2]

theorem revertedLine_other {l : String} (h1 : startsWithCh l '+' = false)
    (h2 : startsWithCh l '-' = false) : revertedLine l = l := by
  rw [revertedLine, if_neg (by simp [h1]), if_neg (by simp [h2])]

theorem startsWithCh_false_of_other {l : String} {c d : Char}
    (h : startsWithCh l c = true) (hne : c ≠ d) :
    startsWithCh l d = false := by
  simp only [startsWithCh, decide_eq_true_eq] at h ⊢
  rw [h]
  simp [hne]

theorem goTail1_revertedLine (l : String) :
    goTail1 (revertedLine l) = goTail1 l := by
  by_cases h1 : startsWithCh l '+'
  · simp [goTail1, revertedLine_data_plus h1]
  · have h1f : startsWithCh l '+' = false := by simpa using h1
    by_cases h2 : startsWithCh l '-'
    · simp [goTail1, revertedLine_data_minus h1f h2]
    · rw [revertedLine_other h1f (by simpa using h2)]

theorem noNl_revertedLine {l : String} (h : '\n' ∉ l.data) :
    '\n' ∉ (revertedLine l).data := by
  by_cases h1 : startsWithCh l '+'
  · rw [revertedLine_data_plus h1]
    intro hc
    rcases List.mem_cons.mp hc with hc | hc
    · exact absurd hc (by decide)
    · exact h (List.mem_of_mem_drop hc)
  · have h1f : startsWithCh l '+' = false := by simpa using h1
    by_cases h2 : startsWithCh l '-'
    · rw [revertedLine_data_minus h1f h2]
      intro hc
      rcases List.mem_cons.mp hc with hc | hc
      · exact absurd hc (by decide)
      · exact h (List.mem_of_mem_drop hc)
    · rw [revertedLine_other h1f (by simpa using h2)]
      exact h

theorem data_ne_nil_revertedLine {l : String} (h : l.data ≠ []) :
    (revertedLine l).data ≠ [] := by
  by_cases h1 : startsWithCh l '+'
  · rw [revertedLine_data_plus h1]; simp
  · have h1f : startsWithCh l '+' = false := by simpa using h1
    by_cases h2 : startsWithCh l '-'
    · rw [revertedLine_data_minus h1f h2]; simp
    · rw [revertedLine_other h1f (by simpa using h2)]; exact h

theorem trimNl_append_nl (s : String) : trimNl (s ++ "\n") = s := by
  show String.mk (trimNlChar (s ++ "\n").data) = s
  rw [data_append]
  have : ("\n" : String).data = ['\n'] := rfl
  rw [this, trimNlChar, if_pos (by rw [List.getLast?_concat]),
    List.dropLast_concat, mk_data]

theorem bodyLines_revertedHunk (h : Hunk) :
    bodyLines (revertedHunk h) = (splitNl h.Body).map revertedLine := by
  show splitNl (trimNl (joinNl ((splitNl h.Body).map revertedLine) ++ "\n"))
    = (splitNl h.Body).map revertedLine
  rw [trimNl_append_nl]
  apply splitNl_joinNl
  · simp [splitNl_ne_nil h.Body]
  · intro x hx
    simp only [List.mem_map] at hx
    obtain ⟨y, hy, rfl⟩ := hx
    exact noNl_revertedLine (splitNl_noNl h.Body y hy)

theorem wfHunkBody_bodyLines {h : Hunk} (hw : wfHunkBody h = true) :
    bodyLines h = splitNl h.Body := by
  unfold bodyLines
  congr 1
  calc trimNl h.Body
      = trimNl (joinNl (splitNl h.Body)) := by rw [joinNl_splitNl]
    _ = joinNl (splitNl h.Body) := by
        apply trimNl_joinNl _ (splitNl_ne_nil h.Body)
        intro x hx
        have hv := validLine_spec x ((List.all_eq_true.mp hw) x hx)
        exact ⟨hv.1, hv.2.1⟩
    _ = h.Body := joinNl_splitNl h.Body

theorem newPayloads_length (ls : List String) :
    (newPayloads ls).length = newsOf ls := by
  simp [newPayloads, newsOf]

theorem anchorPayloads_length (ls : List String) :
    (anchorPayloads ls).length = anchorsOf ls := by
  simp [anchorPayloads, anchorsOf]

theorem validLine_cases {l : String} (hv : validLine l = true) :
    startsWithCh l ' ' = true ∨ startsWithCh l '+' = true
      ∨ startsWithCh l '-' = true := by
  obtain ⟨_, _, h3⟩ := validLine_spec l hv
  simpa [startsWithCh] using h3

theorem newsOf_cons_plus {l : String} (h : startsWithCh l '+' = true)
    (rest : List String) : newsOf (l :: rest) = newsOf rest + 1 := by
  simp [newsOf, List.filter_cons, h]

theorem newsOf_cons_space {l : String} (h : startsWithCh l ' ' = true)
    (rest : List String) : newsOf (l :: rest) = newsOf rest + 1 := by
  simp [newsOf, List.filter_cons, h]

theorem newsOf_cons_other {l : String} (h1 : startsWithCh l '+' = false)
    (h2 : startsWithCh l ' ' = false) (rest : List String) :
    newsOf (l :: rest) = newsOf rest := by
  simp [newsOf, List.filter_cons, h1, h2]

theorem rev_counts (ls : List String) (hv : ∀ l ∈ ls, validLine l = true) :
    anchorsOf (ls.map revertedLine) = newsOf ls
      ∧ newsOf (ls.map revertedLine) = anchorsOf ls
      ∧ anchorPayloads (ls.map revertedLine) = newPayloads ls
      ∧ newPayloads (ls.map revertedLine) = anchorPayloads ls := by
  induction ls with
  | nil => exact ⟨rfl, rfl, rfl, rfl⟩
  | cons l rest ih =>
    obtain ⟨ih1, ih2, ih3, ih4⟩ :=
      ih (fun x hx => hv x (List.mem_cons_of_mem l hx))
    have hvl := hv l (by simp)
    have hgt := goTail1_revertedLine l
    rcases validLine_cases hvl with hsp | hpl | hmn
    · have hp : startsWithCh l '+' = false :=
        startsWithCh_false_of_other hsp (by decide)
      have hm : startsWithCh l '-' = false :=
        startsWithCh_false_of_other hsp (by decide)
      have hrl : revertedLine l = l := revertedLine_other hp hm
      simp only [List.map_cons, hrl]
      refine ⟨?_, ?_, ?_, ?_⟩
      · rw [anchorsOf_cons_anchor hp, newsOf_cons_space hsp, ih1]
      · rw [newsOf_cons_space hsp, anchorsOf_cons_anchor hp, ih2]
      · rw [anchorPayloads_cons_anchor hp, newPayloads_cons_space hsp, ih3]
      · rw [newPayloads_cons_space hsp, anchorPayloads_cons_anchor hp, ih4]
    · have hrd := revertedLine_data_plus hpl
      have hrp : startsWithCh (revertedLine l) '+' = false := by
        simp [startsWithCh, hrd]
      have hrs : startsWithCh (revertedLine l) ' ' = false := by
        simp [startsWithCh, hrd]
      simp only [List.map_cons]
      refine ⟨?_, ?_, ?_, ?_⟩
      · rw [anchorsOf_cons_anchor hrp, newsOf_cons_plus hpl, ih1]
      · rw [newsOf_cons_other hrp hrs, anchorsOf_cons_plus hpl, ih2]
      · rw [anchorPayloads_cons_anchor hrp, newPayloads_cons_plus hpl, ih3,
          hgt]
      · rw [newPayloads_cons_other hrp hrs, anchorPayloads_cons_plus hpl, ih4]
    · have hp : startsWithCh l '+' = false :=
        startsWithCh_false_of_other hmn (by decide)
      have hsp : startsWithCh l ' ' = false :=
        startsWithCh_false_of_other hmn (by decide)
      have hrd := revertedLine_data_minus hp hmn
      have hrp : startsWithCh (revertedLine l) '+' = true := by
        simp [startsWithCh, hrd]
      have hrs : startsWithCh (revertedLine l) ' ' = false := by
        simp [startsWithCh, hrd]
      simp only [List.map_cons]
      refine ⟨?_, ?_, ?_, ?_⟩
      · rw [anchorsOf_cons_plus hrp, newsOf_cons_other hp hsp, ih1]
      · rw [newsOf_cons_plus hrp, anchorsOf_cons_anchor hp, ih2]
      · rw [anchorPayloads_cons_plus hrp, newPayloads_cons_other hp hsp, ih3]
      · rw [newPayloads_cons_plus hrp, anchorPayloads_cons_anchor hp, ih4,
          hgt]

/-! ## Hunk-level application facts -/

theorem applyHunks_ok_bounds (src : List String) :
    ∀ (hs : List Hunk) (c : Int) (out : List String),
    applyHunks src c hs = .ok out →
    ∀ h ∈ hs, h.OrigStartLine + (hunkAnchors h : Int) ≤ (src.length : Int) + 1 := by
  intro hs
  induction hs with
  | nil => intro c out _ h hm; exact absurd hm (List.not_mem_nil h)
  | cons h0 rest ih =>
    intro c out happ h hm
    simp only [applyHunks] at happ
    cases hsl : goSlice src (c - 1) (h0.OrigStartLine - 1) with
    | error e => rw [hsl] at happ; exact absurd happ (by simp)
    | ok pre =>
      rw [hsl] at happ
      dsimp only at happ
      cases hal : applyLines src h0.OrigStartLine (bodyLines h0) with
      | error e => rw [hal] at happ; exact absurd happ (by simp)
      | ok p =>
        obtain ⟨c1, out1⟩ := p
        rw [hal] at happ
        dsimp only at happ
        cases hrest : applyHunks src c1 rest with
        | error e => rw [hrest] at happ; exact absurd happ (by simp)
        | ok tail =>
          rcases List.mem_cons.mp hm with rfl | hm'
          · obtain ⟨_, hle, hhi, _⟩ := goSlice_ok hsl
            obtain ⟨_, _, _, ha4, _⟩ := applyLines_ok_spec src _ _ _ _ hal
            by_cases hz : anchorsOf (bodyLines h) = 0
            · rw [hunkAnchors, hz]
              push_cast
              omega
            · obtain ⟨_, hb⟩ := ha4 hz
              rw [hunkAnchors]
              omega
          · exact ih c1 tail hrest h hm'

theorem applyHunks_out_len (src : List String) :
    ∀ (hs : List Hunk) (c : Int) (out : List String),
    applyHunks src c hs = .ok out →
    (∀ h ∈ hs, h.OrigStartLine + (hunkAnchors h : Int) ≤ (src.length : Int)) →
    c ≤ (src.length : Int) →
    1 ≤ out.length := by
  intro hs
  induction hs with
  | nil =>
    intro c out happ _ hc
    obtain ⟨h1, h2, h3⟩ := goSliceFrom_ok happ
    rw [h3]
    simp only [List.length_drop]
    omega
  | cons h0 rest ih =>
    intro c out happ hspans hc
    simp only [applyHunks] at happ
    cases hsl : goSlice src (c - 1) (h0.OrigStartLine - 1) with
    | error e => rw [hsl] at happ; exact absurd happ (by simp)
    | ok pre =>
      rw [hsl] at happ
      dsimp only at happ
      cases hal : applyLines src h0.OrigStartLine (bodyLines h0) with
      | error e => rw [hal] at happ; exact absurd happ (by simp)
      | ok p =>
        obtain ⟨c1, out1⟩ := p
        rw [hal] at happ
        dsimp only at happ
        cases hrest : applyHunks src c1 rest with
        | error e => rw [hrest] at happ; exact absurd happ (by simp)
        | ok tail =>
          rw [hrest] at happ
          simp only [Except.ok.injEq] at happ
          obtain ⟨ha1, _, _, _, _⟩ := applyLines_ok_spec src _ _ _ _ hal
          have hsp0 := hspans h0 (by simp)
          have htail : 1 ≤ tail.length := by
            apply ih c1 tail hrest
              (fun h hm => hspans h (List.mem_cons_of_mem h0 hm))
            rw [ha1, hunkAnchors] at *
            omega
          rw [← happ]
          simp only [List.length_append]
          omega

theorem chainWF_cons {lb delta : Int} {h : Hunk} {hs : List Hunk}
    (hw : chainWF lb delta (h :: hs) = true) :
    wfHunkBody h = true ∧ lb ≤ h.OrigStartLine
      ∧ h.NewStartLine = h.OrigStartLine + delta
      ∧ chainWF (h.OrigStartLine + (hunkAnchors h : Int))
          (delta + (hunkNews h : Int) - (hunkAnchors h : Int)) hs = true := by
  simp only [chainWF, Bool.and_eq_true, decide_eq_true_eq] at hw
  tauto

theorem rtAux (src : List String) :
    ∀ (hs : List Hunk) (c : Int) (pre out : List String),
    1 ≤ c →
    c ≤ (src.length : Int) + 1 →
    chainWF c (((pre.length : Int) + 1) - c) hs = true →
    (∀ h ∈ hs, h.OrigStartLine + (hunkAnchors h : Int) ≤ (src.length : Int)) →
    applyHunks src c hs = .ok out →
    applyHunks (pre ++ out) ((pre.length : Int) + 1) (hs.map revertedHunk)
      = .ok (src.drop (c - 1).toNat) := by
  intro hs
  induction hs with
  | nil =>
    intro c pre out hc hcl _ _ happ
    obtain ⟨h1, h2, h3⟩ := goSliceFrom_ok happ
    simp only [List.map_nil, applyHunks]
    unfold goSliceFrom
    rw [if_pos (by
      refine ⟨by omega, ?_⟩
      simp only [List.length_append]
      push_cast
      omega)]
    rw [show (((pre.length : Int) + 1) - 1).toNat = pre.length by omega]
    rw [List.drop_left, h3]
  | cons h0 rest ih =>
    intro c pre out hc hcl hwf hspans happ
    obtain ⟨hwb, hcs, hns, hwf'⟩ := chainWF_cons hwf
    simp only [applyHunks] at happ
    cases hsl : goSlice src (c - 1) (h0.OrigStartLine - 1) with
    | error e => rw [hsl] at happ; exact absurd happ (by simp)
    | ok pre1 =>
      rw [hsl] at happ
      dsimp only at happ
      cases hal : applyLines src h0.OrigStartLine (bodyLines h0) with
      | error e => rw [hal] at happ; exact absurd happ (by simp)
      | ok pr =>
        obtain ⟨c1, out1⟩ := pr
        rw [hal] at happ
        dsimp only at happ
        cases hrest : applyHunks src c1 rest with
        | error e => rw [hrest] at happ; exact absurd happ (by simp)
        | ok tail =>
          rw [hrest] at happ
          simp only [Except.ok.injEq] at happ
          obtain ⟨hs1, hs2, hs3, hs4⟩ := goSlice_ok hsl
          obtain ⟨ha1, ha2, ha3, ha4, ha5⟩ := applyLines_ok_spec src _ _ _ _ hal
          have hsp0 := hspans h0 (by simp)
          rw [hunkAnchors] at hsp0
          have hbv : ∀ l ∈ bodyLines h0, validLine l = true := by
            intro l hl
            rw [wfHunkBody_bodyLines hwb] at hl
            exact (List.all_eq_true.mp hwb) l hl
          obtain ⟨hr1, hr2, hr3, hr4⟩ := rev_counts (bodyLines h0) hbv
          have htail1 : 1 ≤ tail.length := by
            apply applyHunks_out_len src rest c1 tail hrest
              (fun h hm => hspans h (List.mem_cons_of_mem h0 hm))
            rw [ha1]
            omega
          have hpre1len : pre1.length = (h0.OrigStartLine - c).toNat := by
            rw [hs4]
            simp only [List.length_take, List.length_drop]
            omega
          have hout1len : out1.length = newsOf (bodyLines h0) := by
            rw [ha2, newPayloads_length]
          subst happ
          simp only [List.map_cons, applyHunks, List.append_assoc]
          have hrevS : (revertedHunk h0).OrigStartLine
              = h0.OrigStartLine + (((pre.length : Int) + 1) - c) := by
            simpa [revertedHunk] using hns
          have houtlen : (pre1 ++ (out1 ++ tail)).length
              = (h0.OrigStartLine - c).toNat + out1.length + tail.length := by
            simp only [List.length_append, hpre1len]
            omega
          have hslice2 : goSlice (pre ++ (pre1 ++ (out1 ++ tail)))
              (((pre.length : Int) + 1) - 1) ((revertedHunk h0).OrigStartLine - 1)
              = .ok pre1 := by
            unfold goSlice
            rw [if_pos (by
              refine ⟨by omega, by rw [hrevS]; omega, ?_⟩
              rw [hrevS]
              simp only [List.length_append, hpre1len]
              push_cast
              omega)]
            congr 1
            rw [show (((pre.length : Int) + 1) - 1).toNat = pre.length by omega]
            rw [List.drop_left]
            apply List.take_left'
            rw [hpre1len, hrevS]
            omega
          rw [hslice2]
          dsimp only
          have hbodyrev : bodyLines (revertedHunk h0)
              = (bodyLines h0).map revertedLine := by
            rw [bodyLines_revertedHunk, wfHunkBody_bodyLines hwb]
          have hbuild : applyLines (pre ++ (pre1 ++ (out1 ++ tail)))
              ((revertedHunk h0).OrigStartLine) (bodyLines (revertedHunk h0))
              = .ok ((revertedHunk h0).OrigStartLine
                  + (newsOf (bodyLines h0) : Int), anchorPayloads (bodyLines h0)) := by
            rw [hbodyrev]
            have hres := applyLines_build (pre ++ (pre1 ++ (out1 ++ tail)))
              ((bodyLines h0).map revertedLine) ((revertedHunk h0).OrigStartLine)
              (by
                intro l hl
                simp only [List.mem_map] at hl
                obtain ⟨y, hy, rfl⟩ := hl
                exact data_ne_nil_revertedLine (validLine_spec y (hbv y hy)).1)
              (by rw [hrevS]; omega)
              (by
                rw [hr3, ha2, hr1]
                rw [show ((revertedHunk h0).OrigStartLine - 1).toNat
                  = pre.length + (h0.OrigStartLine - c).toNat by
                    rw [hrevS]; omega]
                rw [← List.drop_drop, List.drop_left]
                rw [List.drop_left' hpre1len]
                exact (List.take_left' (newPayloads_length _)).symm)
              (by
                rw [hr1, hrevS]
                simp only [List.length_append, hpre1len]
                push_cast
                rw [hout1len]
                omega)
            rw [hres, hr1, hr4]
          rw [hbuild]
          dsimp only
          simp only [hunkAnchors] at hwf'
          rw [← ha1] at hwf'
          have hrec := ih c1 (pre ++ pre1 ++ out1) tail
            (by omega)
            (by omega)
            (by
              rw [show (((pre ++ pre1 ++ out1).length : Int) + 1) - c1
                = (((pre.length : Int) + 1) - c) + (hunkNews h0 : Int)
                  - (hunkAnchors h0 : Int) by
                  simp only [List.length_append, hpre1len, hout1len]
                  rw [ha1, hunkNews, hunkAnchors]
                  push_cast
                  omega]
              simp only [hunkAnchors, hunkNews]
              exact hwf')
            (fun h hm => hspans h (List.mem_cons_of_mem h0 hm))
            hrest
          rw [show pre ++ pre1 ++ out1 ++ tail = pre ++ (pre1 ++ (out1 ++ tail))
            by simp] at hrec
          rw [show (revertedHunk h0).OrigStartLine + (newsOf (bodyLines h0) : Int)
            = ((pre ++ pre1 ++ out1).length : Int) + 1 by
              simp only [List.length_append, hpre1len, hout1len, hrevS]
              push_cast
              omega]
          rw [hrec]
          dsimp only
          congr 1
          rw [ha3, ha1]
          rw [show (h0.OrigStartLine - 1 - (c - 1)).toNat
            = (h0.OrigStartLine - c).toNat from by omega] at hs4
          have e1 : (c - 1).toNat + (h0.OrigStartLine - c).toNat
              = (h0.OrigStartLine - 1).toNat := by omega
          have e2 : (h0.OrigStartLine - 1).toNat + anchorsOf (bodyLines h0)
              = (h0.OrigStartLine + (anchorsOf (bodyLines h0) : Int) - 1).toNat := by
            omega
          symm
          calc src.drop (c - 1).toNat
              = (src.drop (c - 1).toNat).take (h0.OrigStartLine - c).toNat
                  ++ ((src.drop (c - 1).toNat).drop (h0.OrigStartLine - c).toNat)
                := (List.take_append_drop _ _).symm
            _ = pre1 ++ ((src.drop (h0.OrigStartLine - 1).toNat).take
                  (anchorsOf (bodyLines h0))
                  ++ (src.drop (h0.OrigStartLine
                      + (anchorsOf (bodyLines h0) : Int) - 1).toNat)) := by
                rw [List.drop_drop, e1, ← hs4]
                congr 1
                rw [show src.drop (h0.OrigStartLine
                    + (anchorsOf (bodyLines h0) : Int) - 1).toNat
                  = (src.drop (h0.OrigStartLine - 1).toNat).drop
                      (anchorsOf (bodyLines h0)) from by
                    rw [List.drop_drop, e2]]
                exact (List.take_append_drop _ _).symm

/-! ## The revert round trip (C2) -/

theorem wfHunkBody_valid {h : Hunk} (hw : wfHunkBody h = true) :
    ∀ l ∈ bodyLines h, validLine l = true := by
  intro l hl
  rw [wfHunkBody_bodyLines hw] at hl
  exact (List.all_eq_true.mp hw) l hl

theorem chainWF_all_wf : ∀ (lb delta : Int) (hs : List Hunk),
    chainWF lb delta hs = true → ∀ h ∈ hs, wfHunkBody h = true := by
  intro lb delta hs
  induction hs generalizing lb delta with
  | nil => intro _ h hm; exact absurd hm (List.not_mem_nil h)
  | cons h0 rest ih =>
    intro hwf h hm
    simp only [chainWF, Bool.and_eq_true] at hwf
    rcases List.mem_cons.mp hm with rfl | hm'
    · exact hwf.1.1.1
    · exact ih _ _ hwf.2 h hm'

theorem spansOk_spec {len : Nat} {hs : List Hunk} (hsp : spansOk len hs = true) :
    ∀ h ∈ hs, h.OrigStartLine + (hunkAnchors h : Int) ≤ (len : Int) := by
  intro h hm
  have := List.all_eq_true.mp hsp h hm
  simpa using this

theorem applyHunks_out_noNl (src : List String)
    (hsrc : ∀ x ∈ src, '\n' ∉ x.data) :
    ∀ (hs : List Hunk) (c : Int) (out : List String),
    (∀ h ∈ hs, wfHunkBody h = true) →
    applyHunks src c hs = .ok out →
    ∀ x ∈ out, '\n' ∉ x.data := by
  intro hs
  induction hs with
  | nil =>
    intro c out _ happ x hx
    simp only [applyHunks] at happ
    obtain ⟨_, _, rfl⟩ := goSliceFrom_ok happ
    exact hsrc x (List.mem_of_mem_drop hx)
  | cons h0 rest ih =>
    intro c out hwfs happ x hx
    simp only [applyHunks] at happ
    cases hsl : goSlice src (c - 1) (h0.OrigStartLine - 1) with
    | error e => rw [hsl] at happ; exact absurd happ (by simp)
    | ok pre1 =>
      rw [hsl] at happ; dsimp only at happ
      cases hal : applyLines src h0.OrigStartLine (bodyLines h0) with
      | error e => rw [hal] at happ; exact absurd happ (by simp)
      | ok p =>
        obtain ⟨c1, out1⟩ := p
        rw [hal] at happ; dsimp only at happ
        cases hrest : applyHunks src c1 rest with
        | error e => rw [hrest] at happ; exact absurd happ (by simp)
        | ok tail =>
          rw [hrest] at happ; dsimp only at happ
          have hout : pre1 ++ out1 ++ tail = out := by simpa using happ
          subst hout
          rcases List.mem_append.mp hx with hx' | hxT
          · rcases List.mem_append.mp hx' with hxP | hxO
            · obtain ⟨_, _, _, rfl⟩ := goSlice_ok hsl
              exact hsrc x (List.mem_of_mem_drop (List.mem_of_mem_take hxP))
            · have hwb := hwfs h0 (by simp)
              obtain ⟨_, hout1, _, _, _⟩ := applyLines_ok_spec src _ _ _ _ hal
              rw [hout1] at hxO
              simp only [newPayloads, List.mem_map, List.mem_filter] at hxO
              obtain ⟨l, ⟨hl, _⟩, rfl⟩ := hxO
              intro hnl
              simp only [goTail1, data_mk] at hnl
              exact (validLine_spec l (wfHunkBody_valid hwb l hl)).2.1
                (List.mem_of_mem_drop hnl)
          · exact ih c1 tail (fun h hm => hwfs h (List.mem_cons_of_mem h0 hm))
              hrest x hxT

/-- C2: spec corrected. The apply/revert round trip recovers the source
for chain-well-formed diffs whose hunks' anchor spans end strictly before
the last split segment of the source (always the case for a
newline-terminated source whose final empty segment no hunk touches);
for a source without a trailing newline whose last line is consumed by
the diff, the round trip fails instead (see the counterexample). -/
theorem revert_roundtrip_amended (S T : String) (P : FileDiff)
    (hwf : chainWF 1 0 P.Hunks = true)
    (hspan : spansOk (splitNl S).length P.Hunks = true)
    (happ : applyDiff S P = Except.ok T) :
    applyDiff T (revertHunks P) = Except.ok S := by
  unfold applyDiff at happ
  cases hah : applyHunks (splitNl S) 1 P.Hunks with
  | error e => rw [hah] at happ; exact absurd happ (by simp)
  | ok body =>
    rw [hah] at happ; dsimp only at happ
    have hT : joinNl body = T := by simpa using happ
    have hspans' := spansOk_spec hspan
    have hwfall := chainWF_all_wf 1 0 P.Hunks hwf
    have hlen1 : 1 ≤ (splitNl S).length :=
      List.length_pos.mpr (splitNl_ne_nil S)
    have hbody1 : 1 ≤ body.length :=
      applyHunks_out_len (splitNl S) P.Hunks 1 body hah hspans'
        (by exact_mod_cast hlen1)
    have hnoNl : ∀ x ∈ body, '\n' ∉ x.data :=
      applyHunks_out_noNl (splitNl S) (splitNl_noNl S) P.Hunks 1 body hwfall hah
    have hsp : splitNl T = body := by
      rw [← hT]
      exact splitNl_joinNl body (List.ne_nil_of_length_pos hbody1) hnoNl
    have hrt := rtAux (splitNl S) P.Hunks 1 [] body (by omega) (by omega)
      (by simpa using hwf) hspans' hah
    simp only [List.nil_append, List.length_nil, Nat.cast_zero, zero_add,
      sub_self, Int.toNat_zero, List.drop_zero] at hrt
    unfold applyDiff
    rw [show (revertHunks P).Hunks = P.Hunks.map revertedHunk from rfl, hsp]
    rw [hrt]
    dsimp only
    rw [joinNl_splitNl]

/-- The amended round trip at a concrete instance: deleting the second of
two newline-terminated lines and reverting recovers the source. -/
theorem revert_roundtrip_amended_witness :
    applyDiff "u\nx\n" exC2Fd = Except.ok "u\n"
      ∧ applyDiff "u\n" (revertHunks exC2Fd) = Except.ok "u\nx\n" :=
  ⟨by decide,
    revert_roundtrip_amended "u\nx\n" "u\n" exC2Fd (by decide) (by decide)
      (by decide)⟩

/-- C2 counterexample: the clean-context diff ` u` / `-x` applies cleanly
to the source `"u\nx"` (no trailing newline), yet applying the reverted
diff to the result fails instead of returning the source (with or without
a trailing newline). -/
theorem revert_roundtrip_counterexample :
    applyDiff "u\nx" exC2Fd = Except.ok "u"
      ∧ applyDiff "u" (revertHunks exC2Fd) = Except.error GoErr.outOfSource := by
  decide

/-! ## The hunk inverter (C5) and past-EOF application (C8) -/

/-- C5: confirmed. The reverted hunk swaps the orig/new coordinate pairs
and maps every body line by the line inverter `revertedLine`, which turns
`+x` into `-x`, `-x` into `+x` and leaves context lines unchanged. -/
theorem revertedHunk_spec (h : Hunk) (hw : wfHunkBody h = true) :
    (revertedHunk h).OrigStartLine = h.NewStartLine
      ∧ (revertedHunk h).OrigLines = h.NewLines
      ∧ (revertedHunk h).NewStartLine = h.OrigStartLine
      ∧ (revertedHunk h).NewLines = h.OrigLines
      ∧ bodyLines (revertedHunk h) = (bodyLines h).map revertedLine
      ∧ (∀ cs : List Char,
          revertedLine (String.mk ('+' :: cs)) = String.mk ('-' :: cs))
      ∧ (∀ cs : List Char,
          revertedLine (String.mk ('-' :: cs)) = String.mk ('+' :: cs))
      ∧ (∀ cs : List Char,
          revertedLine (String.mk (' ' :: cs)) = String.mk (' ' :: cs)) := by
  refine ⟨rfl, rfl, rfl, rfl, ?_, fun cs => rfl, fun cs => rfl, fun cs => rfl⟩
  rw [bodyLines_revertedHunk, wfHunkBody_bodyLines hw]

/-- The inverter's field swap and body mapping at the E4 hunk. -/
theorem revertedHunk_spec_witness :
    wfHunkBody exE4Old = true
      ∧ bodyLines (revertedHunk exE4Old) = (bodyLines exE4Old).map revertedLine :=
  ⟨by decide, (revertedHunk_spec exE4Old (by decide)).2.2.2.2.1⟩

/-- C8: spec corrected. A diff with a hunk whose anchor lines would
advance past the last line of the source always makes the applier fail
and return no output string — but with the dedicated out-of-source error,
not the content-mismatch error the spec names (see the counterexample). -/
theorem apply_past_eof_fails (src : String) (P : FileDiff)
    (hbad : ∃ h ∈ P.Hunks,
      ((splitNl src).length : Int) + 1 < h.OrigStartLine + (hunkAnchors h : Int)) :
    ∃ e, applyDiff src P = Except.error e := by
  cases happ : applyDiff src P with
  | error e => exact ⟨e, rfl⟩
  | ok T =>
    exfalso
    unfold applyDiff at happ
    cases hah : applyHunks (splitNl src) 1 P.Hunks with
    | error e => rw [hah] at happ; exact absurd happ (by simp)
    | ok body =>
      obtain ⟨h, hm, hlt⟩ := hbad
      have hb := applyHunks_ok_bounds (splitNl src) P.Hunks 1 body hah h hm
      omega

/-- Past-EOF failure at a concrete instance: a two-anchor hunk on a
one-line source. -/
theorem apply_past_eof_fails_witness :
    (∃ h ∈ exC8Fd.Hunks,
      ((splitNl "a").length : Int) + 1 < h.OrigStartLine + (hunkAnchors h : Int))
      ∧ ∃ e, applyDiff "a" exC8Fd = Except.error e :=
  ⟨by decide, apply_past_eof_fails "a" exC8Fd (by decide)⟩

/-- C8 counterexample: the past-EOF application fails with the
out-of-source error, a distinct error from the content mismatch named by
the spec (and raised by the applier only for anchor-payload
disagreements). -/
theorem apply_past_eof_counterexample :
    applyDiff "a" exC8Fd = Except.error GoErr.outOfSource
      ∧ GoErr.outOfSource ≠ GoErr.contentMismatch := by
  decide

/-! ## Merge metadata (C10) and anchor mismatch (C4) -/

theorem mergeOpen_some (c : Int) (b : List String) (q : List Hunk) :
    mergeOpen c (some b) q = (some b, q) := by
  cases q <;> rfl

theorem configureResultHunk_fields (oldHunks newHunks : List Hunk) (rh : Hunk)
    (c : Int) (h : configureResultHunk oldHunks newHunks = .ok (rh, c)) :
    ∃ ho rest, oldHunks = ho :: rest
      ∧ rh.Section = "" ∧ rh.OrigNoNewlineAt = 0
      ∧ rh.StartPosition = ho.StartPosition := by
  match oldHunks, newHunks with
  | [], _ => simp [configureResultHunk] at h
  | _ :: _, [] => simp [configureResultHunk] at h
  | ho :: restOld, hn :: restNew =>
    refine ⟨ho, restOld, rfl, ?_⟩
    simp only [configureResultHunk] at h
    split at h <;> split at h <;>
      (injection h with h'
       injection h' with h1 h2
       subst h1
       exact ⟨rfl, rfl, rfl⟩)

/-- C10: confirmed. A merged hunk carries an empty section, a zero
no-newline marker and the start position of the first old hunk of the
chain, and the file diff built by `interFileDiff` always has an empty
extended-header list: the inputs' metadata is discarded. -/
theorem merged_hunk_discards_metadata (oldHunks newHunks : List Hunk) (h : Hunk)
    (hm : mergeOverlappingHunks oldHunks newHunks = .ok (some h)) :
    (h.Section = "" ∧ h.OrigNoNewlineAt = 0
      ∧ ∃ ho rest, oldHunks = ho :: rest ∧ h.StartPosition = ho.StartPosition)
    ∧ ∀ (oldFd newFd fd : FileDiff),
        interFileDiff oldFd newFd = .ok fd → fd.Extended = [] := by
  constructor
  · unfold mergeOverlappingHunks at hm
    cases hc : configureResultHunk oldHunks newHunks with
    | error e => rw [hc] at hm; exact absurd hm (by simp)
    | ok p =>
      obtain ⟨rh, ci⟩ := p
      rw [hc] at hm; dsimp only at hm
      obtain ⟨ho, rest, hol, hs, hn0, hsp⟩ :=
        configureResultHunk_fields oldHunks newHunks rh ci hc
      cases hml : mergeLoop (mergeFuel oldHunks newHunks) oldHunks newHunks
          none none ci [] with
      | error e => rw [hml] at hm; exact absurd hm (by simp)
      | ok nb =>
        rw [hml] at hm; dsimp only at hm
        split at hm
        · have hlit : ({ rh with Body := joinNl nb ++ "\n" } : Hunk) = h := by
            simpa using hm
          subst hlit
          exact ⟨hs, hn0, ho, rest, hol, hsp⟩
        · exact absurd hm (by simp)
  · intro oldFd newFd fd hifd
    unfold interFileDiff at hifd
    cases hil : interLoop (oldFd.Hunks.length + newFd.Hunks.length + 1)
        oldFd.Hunks newFd.Hunks [] with
    | error e => rw [hil] at hifd; exact absurd hifd (by simp)
    | ok hunks =>
      rw [hil] at hifd; dsimp only at hifd
      injection hifd with hfd
      rw [← hfd]

/-- The metadata claim at the E4 instance. -/
theorem merged_hunk_discards_metadata_witness :
    mergeOverlappingHunks [exE4Old] [exE4New] = Except.ok (some exE4Merged)
      ∧ (exE4Merged.Section = "" ∧ exE4Merged.OrigNoNewlineAt = 0
          ∧ ∃ ho rest, [exE4Old] = ho :: rest
              ∧ exE4Merged.StartPosition = ho.StartPosition)
      ∧ (∀ (oldFd newFd fd : FileDiff),
          interFileDiff oldFd newFd = .ok fd → fd.Extended = []) :=
  ⟨by decide,
    (merged_hunk_discards_metadata [exE4Old] [exE4New] exE4Merged (by decide)).1,
    (merged_hunk_discards_metadata [exE4Old] [exE4New] exE4Merged (by decide)).2⟩

/-- C4: confirmed. When both merge cursors stand on open anchor lines
(no `+` prefix) for the same original line and the payloads after the
prefix differ, the walk stops with the content-mismatch error — whatever
the remaining queues, body remainders and accumulated output are — and
the chain produces no merged hunk, as at the concrete mismatch pair. -/
theorem merge_anchor_mismatch (fuel : Nat) (qo qn : List Hunk)
    (obRest nbRest : List String) (lo ln : String) (cOrg : Int)
    (acc : List String)
    (hlo : startsWithCh lo '+' = false) (hln : startsWithCh ln '+' = false)
    (hloD : lo.data ≠ []) (hlnD : ln.data ≠ [])
    (hne : goTail1 lo ≠ goTail1 ln) :
    mergeLoop (fuel + 1) qo qn (some (lo :: obRest)) (some (ln :: nbRest))
        cOrg acc = Except.error GoErr.contentMismatch
      ∧ mergeOverlappingHunks [exC4Old] [exC4New]
          = Except.error GoErr.contentMismatch := by
  refine ⟨?_, by decide⟩
  unfold mergeLoop
  rw [if_neg (by simp)]
  rw [mergeOpen_some, mergeOpen_some]
  dsimp only
  rw [hlo, hln]
  simp only [Bool.or_self, Bool.false_eq_true, if_false]
  rw [if_neg (by
    simp only [Bool.or_eq_true, List.isEmpty_eq_true]
    push_neg
    exact ⟨hloD, hlnD⟩)]
  rw [if_pos hne]

/-- The anchor-mismatch failure at the concrete pair ` x` / ` y`. -/
theorem merge_anchor_mismatch_witness :
    mergeLoop 1 [] [] (some [" x"]) (some [" y"]) 5 []
        = Except.error GoErr.contentMismatch
      ∧ mergeOverlappingHunks [exC4Old] [exC4New]
          = Except.error GoErr.contentMismatch :=
  merge_anchor_mismatch 0 [] [] [] [] " x" " y" 5 [] (by decide) (by decide)
    (by decide) (by decide) (by decide)

/-! ## The assembler's counts and context bounds (C9, C6) -/

/-- C9: the chunks-to-FileDiff assembler breaks the body-count invariant.
On a hunk split the closed hunk's line-count fields exceed the body's
anchor and new line counts by one (the `+ 1` of patchutils.go:555-556),
and the newly opened hunk is seeded with `contextLines + 1` context lines
while its start is only `contextLines` before the cursor, so its final
counts fall one short of its body. -/
theorem asm_count_invariant_broken :
    ∃ h ∈ (convertChunksIntoFileDiff exSplitChunks exEmptyFd).Hunks,
      ¬(h.OrigLines = (anchorsOf (bodyLines h) : Int)
          ∧ h.NewLines = (newsOf (bodyLines h) : Int)) := by
  decide

/-- C6 counterexample: after a hunk split the reopened hunk starts with
`contextLines + 1 = 3` leading context lines, exceeding the claimed bound
of 2. -/
theorem asm_context_counterexample :
    ∃ h ∈ (convertChunksIntoFileDiff exSplitChunks exEmptyFd).Hunks,
      contextLines < leadingCtx h := by
  decide

/-! ## The lockstep merge of identical hunks (C7) -/

theorem lcsF_self : ∀ (xs : List String) (fuel : Nat),
    xs.length ≤ fuel → lcsF fuel xs xs = xs := by
  intro xs
  induction xs with
  | nil => intro fuel _; cases fuel <;> rfl
  | cons x xs ih =>
    intro fuel hle
    cases fuel with
    | zero => simp at hle
    | succ f =>
      show (if x = x then x :: lcsF f xs xs else _) = x :: xs
      rw [if_pos rfl, ih f (by simpa using Nat.lt_succ_iff.mp (Nat.lt_of_lt_of_le (Nat.lt_succ_self _) hle))]

theorem lcs_self (xs : List String) : lcs xs xs = xs :=
  lcsF_self xs (xs.length + xs.length) (by omega)

theorem rawChunks_self : ∀ (xs : List String),
    rawChunks xs xs xs = xs.map (fun z => (⟨[], [], [z]⟩ : Chunk)) := by
  intro xs
  induction xs with
  | nil => rfl
  | cons x xs ih =>
    show (if ((x :: xs).takeWhile (fun w => w ≠ x)).isEmpty then _ else _)
        ++ _ ++ _ :: rawChunks _ _ xs = _
    have ht : (x :: xs).takeWhile (fun w => w ≠ x) = [] := by
      simp [List.takeWhile_cons]
    have hd : ((x :: xs).dropWhile (fun w => w ≠ x)).drop 1 = xs := by
      rw [List.dropWhile_cons]
      simp
    rw [ht, hd]
    simp only [List.isEmpty_nil, if_pos, List.nil_append, List.map_cons]
    rw [ih]

theorem mergeEqChunks_singletons : ∀ (x : String) (xs : List String),
    mergeEqChunks ((x :: xs).map (fun z => (⟨[], [], [z]⟩ : Chunk)))
      = [⟨[], [], x :: xs⟩] := by
  intro x xs
  induction xs generalizing x with
  | nil => rfl
  | cons y ys ih =>
    show mergeEqChunks (⟨[], [], [x]⟩ :: (y :: ys).map _) = _
    rw [mergeEqChunks, ih y]
    rfl

theorem diffChunks_self (xs : List String) :
    diffChunks xs xs = if xs.isEmpty then [] else [⟨[], [], xs⟩] := by
  unfold diffChunks
  rw [lcs_self, rawChunks_self]
  cases xs with
  | nil => rfl
  | cons x xs => rw [mergeEqChunks_singletons]; rfl

theorem renderChunks_ctx (xs : List String) :
    renderChunks (if xs.isEmpty then ([] : List Chunk) else [⟨[], [], xs⟩])
      = xs.map (fun l => " " ++ l) := by
  cases xs with
  | nil => rfl
  | cons x xs => simp [renderChunks, renderChunk]

theorem interAddedLines_self (b : List String) :
    interAddedLines b b
      = (((b.takeWhile (fun l => startsWithCh l '+')).map goTail1).map
            (fun l => " " ++ l),
         b.dropWhile (fun l => startsWithCh l '+'),
         b.dropWhile (fun l => startsWithCh l '+')) := by
  unfold interAddedLines
  dsimp only
  rw [diffChunks_self, renderChunks_ctx]

theorem mergeOpen_none_hit (h : Hunk) (rest : List Hunk) :
    mergeOpen h.OrigStartLine none (h :: rest) = (some (bodyLines h), rest) := by
  simp [mergeOpen]

theorem startsWithCh_space_append (x : String) :
    startsWithCh (" " ++ x) ' ' = true := by
  simp [startsWithCh, data_append]

theorem mergeLoop_lockstep : ∀ (fuel : Nat) (b : List String) (cOrg : Int)
    (acc : List String),
    b.length + 1 ≤ fuel →
    (∀ l ∈ b, validLine l = true) →
    ∃ extra, mergeLoop fuel [] [] (if b.isEmpty then none else some b)
        (if b.isEmpty then none else some b) cOrg acc
          = .ok (acc ++ extra)
      ∧ ∀ l ∈ extra, startsWithCh l ' ' = true := by
  intro fuel
  induction fuel with
  | zero => intro b cOrg acc hle _; exact (Nat.not_succ_le_zero _ hle).elim
  | succ f ih =>
    intro b cOrg acc hle hv
    cases b with
    | nil =>
      refine ⟨[], by simp [mergeLoop], by simp⟩
    | cons l r =>
      rw [if_neg (by simp : ¬((l :: r).isEmpty = true))]
      rw [mergeLoop]
      rw [if_neg (by simp)]
      dsimp only
      rw [mergeOpen_some]
      dsimp only
      by_cases hplus : startsWithCh l '+' = true
      · rw [if_pos (by simp [hplus])]
        rw [interAddedLines_self]
        dsimp only
        have hdw : (l :: r).dropWhile (fun s => startsWithCh s '+')
            = r.dropWhile (fun s => startsWithCh s '+') := by
          rw [List.dropWhile_cons, if_pos hplus]
        have hrlen : ((l :: r).dropWhile (fun s => startsWithCh s '+')).length + 1
            ≤ f := by
          rw [hdw]
          have hsub := (List.dropWhile_sublist
            (fun s => startsWithCh s '+') (l := r)).length_le
          simp only [List.length_cons] at hle
          omega
        obtain ⟨extra, hrec, hex⟩ := ih _ cOrg
          (acc ++ (((l :: r).takeWhile (fun s => startsWithCh s '+')).map
              goTail1).map (fun s => " " ++ s))
          hrlen
          (fun s hs => hv s ((List.dropWhile_sublist _).mem hs))
        rw [hrec]
        refine ⟨(((l :: r).takeWhile (fun s => startsWithCh s '+')).map
            goTail1).map (fun s => " " ++ s) ++ extra, ?_, ?_⟩
        · rw [List.append_assoc]
        · intro s hs
          rcases List.mem_append.mp hs with hs1 | hs2
          · obtain ⟨y, _, rfl⟩ := List.mem_map.mp hs1
            exact startsWithCh_space_append y
          · exact hex s hs2
      · rw [if_neg (by simp [hplus])]
        have hvl := hv l (by simp)
        have hdne := (validLine_spec l hvl).1
        rw [if_neg (by
          simp only [Bool.or_self, List.isEmpty_eq_true]
          exact fun hc => hdne (by simpa using hc))]
        rw [if_neg (by simp)]
        have hrlen : r.length + 1 ≤ f := by
          simp only [List.length_cons] at hle
          omega
        have hvr : ∀ s ∈ r, validLine s = true :=
          fun s hs => hv s (List.mem_cons_of_mem l hs)
        by_cases hsp : startsWithCh l ' ' = true
        · rw [if_pos (show (startsWithCh l ' ' && startsWithCh l ' ') = true
            by simp [hsp])]
          obtain ⟨extra, hrec, hex⟩ := ih r (cOrg + 1) (acc ++ [l]) hrlen hvr
          rw [hrec]
          refine ⟨[l] ++ extra, by rw [List.append_assoc], ?_⟩
          intro s hs
          rcases List.mem_append.mp hs with hs1 | hs2
          · rw [List.mem_singleton.mp hs1]; exact hsp
          · exact hex s hs2
        · rw [if_neg (show ¬((startsWithCh l ' ' && startsWithCh l ' ') = true)
              by simp [hsp]),
            if_neg (show ¬((startsWithCh l '-' && startsWithCh l ' ') = true)
              by simp [hsp]),
            if_neg (show ¬((startsWithCh l ' ' && startsWithCh l '-') = true)
              by simp [hsp])]
          obtain ⟨extra, hrec, hex⟩ := ih r (cOrg + 1) (acc ++ []) hrlen hvr
          rw [hrec]
          exact ⟨extra, by simp, hex⟩

theorem mergeLoop_self_open (fuel : Nat) (h : Hunk) (acc : List String)
    (hfuel : (bodyLines h).length + 1 ≤ fuel + 1)
    (hv : ∀ l ∈ bodyLines h, validLine l = true) :
    ∃ extra, mergeLoop (fuel + 1) [h] [h] none none h.OrigStartLine acc
        = .ok (acc ++ extra)
      ∧ ∀ l ∈ extra, startsWithCh l ' ' = true := by
  obtain ⟨extra, hrec, hex⟩ := mergeLoop_lockstep (fuel + 1) (bodyLines h)
    h.OrigStartLine acc hfuel hv
  rw [if_neg (show ¬((bodyLines h).isEmpty = true) from by
    simp only [List.isEmpty_eq_true, bodyLines]
    exact splitNl_ne_nil _)] at hrec
  refine ⟨extra, ?_, hex⟩
  rw [mergeLoop] at hrec ⊢
  rw [if_neg (by simp)] at hrec
  rw [if_neg (by simp)]
  dsimp only at hrec ⊢
  rw [mergeOpen_none_hit]
  rw [mergeOpen_some] at hrec
  dsimp only at hrec ⊢
  exact hrec

theorem merge_self_none (h : Hunk) (hv : wfHunkBody h = true) :
    mergeOverlappingHunks [h] [h] = .ok none := by
  unfold mergeOverlappingHunks
  have hc : ∃ rh, configureResultHunk [h] [h] = .ok (rh, h.OrigStartLine) := by
    simp only [configureResultHunk]
    rw [if_neg (lt_irrefl _)]
    exact ⟨_, rfl⟩
  obtain ⟨rh, hc⟩ := hc
  rw [hc]
  dsimp only
  have hfuel : mergeFuel [h] [h]
      = ((bodyLines h).length + (bodyLines h).length) + 1 := by
    simp [mergeFuel]
  rw [hfuel]
  obtain ⟨extra, hrec, hex⟩ := mergeLoop_self_open
    ((bodyLines h).length + (bodyLines h).length) h [] (by omega)
    (fun l hl => wfHunkBody_valid hv l hl)
  rw [hrec]
  dsimp only
  rw [if_neg (by
    simp only [List.nil_append, List.any_eq_true, not_exists]
    intro l
    simp only [not_and]
    intro hl
    simp [hex l hl])]

theorem findOverlapExt_sep (h : Hunk) (rest : List Hunk)
    (hsep : hunksSeparated (h.OrigStartLine + h.OrigLines) rest = true) :
    findOverlapExt h h rest rest = ([], [], rest, rest) := by
  cases rest with
  | nil => rfl
  | cons r0 rr =>
    have hle : h.OrigStartLine + h.OrigLines ≤ r0.OrigStartLine := by
      simp only [hunksSeparated, Bool.and_eq_true, decide_eq_true_eq] at hsep
      exact hsep.1.1
    show findOverlapExtF ((r0 :: rr).length + (r0 :: rr).length) h h
      (r0 :: rr) (r0 :: rr) = _
    rw [show (r0 :: rr).length + (r0 :: rr).length
      = (rr.length + (r0 :: rr).length) + 1 from by
        simp only [List.length_cons]; omega]
    rw [findOverlapExtF]
    dsimp only
    rw [if_neg (fun hc => absurd hc.2 (not_lt.mpr hle))]
    rw [if_neg (fun hc => absurd hc.2 (not_lt.mpr hle))]

theorem interLoop_self : ∀ (hs : List Hunk) (fuel : Nat) (lb : Int)
    (acc : List Hunk),
    2 * hs.length + 1 ≤ fuel →
    hunksSeparated lb hs = true →
    (∀ h ∈ hs, wfHunkBody h = true) →
    interLoop fuel hs hs acc = .ok acc := by
  intro hs
  induction hs with
  | nil =>
    intro fuel lb acc hf _ _
    cases fuel with
    | zero => omega
    | succ f => simp [interLoop]
  | cons h rest ih =>
    intro fuel lb acc hf hsep hwf
    cases fuel with
    | zero => simp at hf
    | succ f =>
      simp only [hunksSeparated, Bool.and_eq_true, decide_eq_true_eq] at hsep
      obtain ⟨⟨hlb, h0⟩, hsep'⟩ := hsep
      rw [interLoop]
      dsimp only
      rw [if_neg (by omega)]
      rw [if_neg (by omega)]
      rw [findOverlapExt_sep h rest hsep']
      dsimp only
      rw [merge_self_none h (hwf h (by simp))]
      dsimp only
      rw [show acc ++ (none : Option Hunk).toList = acc from by simp]
      refine ih f (h.OrigStartLine + h.OrigLines) acc ?_ hsep'
        (fun x hx => hwf x (List.mem_cons_of_mem h hx))
      simp only [List.length_cons] at hf
      omega

theorem interFileDiff_self (fd : FileDiff)
    (hwfh : wfFileDiffHunks fd = true)
    (hwb : ∀ h ∈ fd.Hunks, wfHunkBody h = true) :
    ∃ fdE, interFileDiff fd fd = .ok fdE ∧ fdE.Hunks = [] := by
  have hsep : ∃ lb, hunksSeparated lb fd.Hunks = true := by
    cases hh : fd.Hunks with
    | nil => exact ⟨0, rfl⟩
    | cons h rest =>
      refine ⟨h.OrigStartLine, ?_⟩
      unfold wfFileDiffHunks at hwfh
      rw [hh] at hwfh
      dsimp only at hwfh
      simp only [Bool.and_eq_true, decide_eq_true_eq] at hwfh
      simp only [hunksSeparated, Bool.and_eq_true, decide_eq_true_eq]
      exact ⟨⟨le_refl _, hwfh.1⟩, hwfh.2⟩
  obtain ⟨lb, hsep⟩ := hsep
  unfold interFileDiff
  rw [interLoop_self fd.Hunks (fd.Hunks.length + fd.Hunks.length + 1) lb []
    (by omega) hsep hwb]
  exact ⟨_, rfl, rfl⟩

theorem mem_insertByName {x d : FileDiff} :
    ∀ {l : List FileDiff}, x ∈ insertByName d l → x = d ∨ x ∈ l := by
  intro l
  induction l with
  | nil => intro hx; simp [insertByName] at hx; exact Or.inl hx
  | cons e es ih =>
    intro hx
    unfold insertByName at hx
    split at hx
    · rcases List.mem_cons.mp hx with rfl | hx'
      · exact Or.inr (by simp)
      · rcases ih hx' with h1 | h2
        · exact Or.inl h1
        · exact Or.inr (List.mem_cons_of_mem _ h2)
    · rcases List.mem_cons.mp hx with rfl | hx'
      · exact Or.inl rfl
      · exact Or.inr hx'

theorem mem_sortByName {x : FileDiff} :
    ∀ {l : List FileDiff}, x ∈ sortByName l → x ∈ l := by
  intro l
  induction l with
  | nil => intro hx; simp [sortByName] at hx
  | cons d ds ih =>
    intro hx
    rcases mem_insertByName hx with rfl | hx'
    · simp
    · exact List.mem_cons_of_mem _ (ih hx')

theorem interItemsLoopF_self : ∀ (l : List FileDiff) (fuel : Nat),
    2 * l.length + 1 ≤ fuel →
    (∀ fd ∈ l, wfFileDiffHunks fd = true
        ∧ ∀ h ∈ fd.Hunks, wfHunkBody h = true) →
    ∃ items, interItemsLoopF fuel l l = .ok items
      ∧ ∀ it ∈ items, (∀ d b, it ≠ InterItem.onlyIn d b)
          ∧ ∀ fd, it = InterItem.changed fd → fd.Hunks = [] := by
  intro l
  induction l with
  | nil =>
    intro fuel hf _
    cases fuel with
    | zero => omega
    | succ f => exact ⟨[], rfl, by simp⟩
  | cons o os ih =>
    intro fuel hf hwf
    cases fuel with
    | zero => simp at hf
    | succ f =>
      have hf' : 2 * os.length + 1 ≤ f := by
        simp only [List.length_cons] at hf
        omega
      have hwf' : ∀ fd ∈ os, wfFileDiffHunks fd = true
          ∧ ∀ h ∈ fd.Hunks, wfHunkBody h = true :=
        fun fd hfd => hwf fd (List.mem_cons_of_mem o hfd)
      rw [interItemsLoopF]
      rw [if_pos rfl]
      by_cases hnn : o.NewName = ""
      · rw [if_pos (by simp [hnn])]
        exact ih f hf' hwf'
      · rw [if_neg (by simp [hnn]), if_neg hnn, if_neg hnn]
        obtain ⟨hwfh, hwb⟩ := hwf o (by simp)
        obtain ⟨fdE, hifd, hE⟩ := interFileDiff_self o hwfh hwb
        rw [hifd]
        dsimp only
        obtain ⟨items, hrec, hp⟩ := ih f hf' hwf'
        rw [hrec]
        dsimp only
        refine ⟨.changed fdE :: items, rfl, ?_⟩
        intro it hit
        rcases List.mem_cons.mp hit with rfl | hit'
        · refine ⟨fun d b hcon => by simp at hcon, ?_⟩
          intro fd hfd
          injection hfd with h1
          rw [← h1]
          exact hE
        · exact hp it hit'

/-- C7: confirmed. Interdiffing a well-formed, non-empty diff with itself
produces empty output: the pairing walk yields no `Only in` item, and
every changed item carries an empty hunk list (identical hunks merge to
all-context bodies, which `mergeOverlappingHunks` drops). -/
theorem interdiff_self_empty (fds : List FileDiff) (hne : fds ≠ [])
    (hwf : ∀ fd ∈ fds, wfFileDiffHunks fd = true
        ∧ ∀ h ∈ fd.Hunks, wfHunkBody h = true) :
    ∃ items, interDiffItems fds fds = .ok items
      ∧ ∀ it ∈ items, (∀ d b, it ≠ InterItem.onlyIn d b)
          ∧ ∀ fd, it = InterItem.changed fd → fd.Hunks = [] := by
  unfold interDiffItems
  rw [if_neg (by simp [List.isEmpty_eq_true, hne])]
  rw [if_neg (by simp [List.isEmpty_eq_true, hne])]
  unfold interItemsLoop
  exact interItemsLoopF_self (sortByName fds) _ (by omega)
    (fun fd hfd => hwf fd (mem_sortByName hfd))

/-- Self-interdiff at a concrete one-file diff: one changed item, no
hunks, no `Only in` lines. -/
theorem interdiff_self_empty_witness :
    ([exNewFd] ≠ ([] : List FileDiff))
      ∧ (∀ fd ∈ [exNewFd], wfFileDiffHunks fd = true
            ∧ ∀ h ∈ fd.Hunks, wfHunkBody h = true)
      ∧ ∃ items, interDiffItems [exNewFd] [exNewFd] = .ok items
          ∧ ∀ it ∈ items, (∀ d b, it ≠ InterItem.onlyIn d b)
              ∧ ∀ fd, it = InterItem.changed fd → fd.Hunks = [] :=
  ⟨by decide, by decide,
    interdiff_self_empty [exNewFd] (by decide) (by decide)⟩

/-! ## The rendered line diff of two added runs (C3) -/

theorem swc_plus (x : String) (d : Char) :
    startsWithCh ("+" ++ x) d = decide ('+' = d) := by
  simp [startsWithCh, data_append]

theorem swc_minus (x : String) (d : Char) :
    startsWithCh ("-" ++ x) d = decide ('-' = d) := by
  simp [startsWithCh, data_append]

theorem swc_space (x : String) (d : Char) :
    startsWithCh (" " ++ x) d = decide (' ' = d) := by
  simp [startsWithCh, data_append]

theorem goTail1_plus (x : String) : goTail1 ("+" ++ x) = x := by
  simp [goTail1, data_append]

theorem goTail1_minus (x : String) : goTail1 ("-" ++ x) = x := by
  simp [goTail1, data_append]

theorem goTail1_space (x : String) : goTail1 (" " ++ x) = x := by
  simp [goTail1, data_append]

theorem origPayloads_append (a b : List String) :
    origPayloads (a ++ b) = origPayloads a ++ origPayloads b := by
  simp [origPayloads, List.filter_append]

theorem newPayloads_append (a b : List String) :
    newPayloads (a ++ b) = newPayloads a ++ newPayloads b := by
  simp [newPayloads, List.filter_append]

theorem ctxPayloads_append (a b : List String) :
    ctxPayloads (a ++ b) = ctxPayloads a ++ ctxPayloads b := by
  simp [ctxPayloads, List.filter_append]

theorem origPayloads_renderChunk (c : Chunk) :
    origPayloads (renderChunk c) = c.Deleted ++ c.Equal := by
  unfold renderChunk
  rw [origPayloads_append, origPayloads_append]
  have h1 : origPayloads (c.Added.map (fun l => "+" ++ l)) = [] := by
    unfold origPayloads
    rw [List.filter_eq_nil_iff.mpr, List.map_nil]
    intro a ha
    obtain ⟨y, _, rfl⟩ := List.mem_map.mp ha
    simp [swc_plus]
  have h2 : origPayloads (c.Deleted.map (fun l => "-" ++ l)) = c.Deleted := by
    unfold origPayloads
    rw [List.filter_eq_self.mpr, List.map_map]
    · exact (List.map_congr_left (fun a _ => goTail1_minus a)).trans
        (List.map_id _)
    · intro a ha
      obtain ⟨y, _, rfl⟩ := List.mem_map.mp ha
      simp [swc_minus]
  have h3 : origPayloads (c.Equal.map (fun l => " " ++ l)) = c.Equal := by
    unfold origPayloads
    rw [List.filter_eq_self.mpr, List.map_map]
    · exact (List.map_congr_left (fun a _ => goTail1_space a)).trans
        (List.map_id _)
    · intro a ha
      obtain ⟨y, _, rfl⟩ := List.mem_map.mp ha
      simp [swc_space]
  rw [h1, h2, h3, List.nil_append]

theorem newPayloads_renderChunk (c : Chunk) :
    newPayloads (renderChunk c) = c.Added ++ c.Equal := by
  unfold renderChunk
  rw [newPayloads_append, newPayloads_append]
  have h1 : newPayloads (c.Added.map (fun l => "+" ++ l)) = c.Added := by
    unfold newPayloads
    rw [List.filter_eq_self.mpr, List.map_map]
    · exact (List.map_congr_left (fun a _ => goTail1_plus a)).trans
        (List.map_id _)
    · intro a ha
      obtain ⟨y, _, rfl⟩ := List.mem_map.mp ha
      simp [swc_plus]
  have h2 : newPayloads (c.Deleted.map (fun l => "-" ++ l)) = [] := by
    unfold newPayloads
    rw [List.filter_eq_nil_iff.mpr, List.map_nil]
    intro a ha
    obtain ⟨y, _, rfl⟩ := List.mem_map.mp ha
    simp [swc_minus]
  have h3 : newPayloads (c.Equal.map (fun l => " " ++ l)) = c.Equal := by
    unfold newPayloads
    rw [List.filter_eq_self.mpr, List.map_map]
    · exact (List.map_congr_left (fun a _ => goTail1_space a)).trans
        (List.map_id _)
    · intro a ha
      obtain ⟨y, _, rfl⟩ := List.mem_map.mp ha
      simp [swc_space]
  rw [h1, h2, h3, List.append_nil]

theorem ctxPayloads_renderChunk (c : Chunk) :
    ctxPayloads (renderChunk c) = c.Equal := by
  unfold renderChunk
  rw [ctxPayloads_append, ctxPayloads_append]
  have h1 : ctxPayloads (c.Added.map (fun l => "+" ++ l)) = [] := by
    unfold ctxPayloads
    rw [List.filter_eq_nil_iff.mpr, List.map_nil]
    intro a ha
    obtain ⟨y, _, rfl⟩ := List.mem_map.mp ha
    simp [swc_plus]
  have h2 : ctxPayloads (c.Deleted.map (fun l => "-" ++ l)) = [] := by
    unfold ctxPayloads
    rw [List.filter_eq_nil_iff.mpr, List.map_nil]
    intro a ha
    obtain ⟨y, _, rfl⟩ := List.mem_map.mp ha
    simp [swc_minus]
  have h3 : ctxPayloads (c.Equal.map (fun l => " " ++ l)) = c.Equal := by
    unfold ctxPayloads
    rw [List.filter_eq_self.mpr, List.map_map]
    · exact (List.map_congr_left (fun a _ => goTail1_space a)).trans
        (List.map_id _)
    · intro a ha
      obtain ⟨y, _, rfl⟩ := List.mem_map.mp ha
      simp [swc_space]
  rw [h1, h2, h3]
  rfl

theorem renderChunks_cons (c : Chunk) (cs : List Chunk) :
    renderChunks (c :: cs) = renderChunk c ++ renderChunks cs := by
  simp [renderChunks]

theorem origPayloads_renderChunks (cs : List Chunk) :
    origPayloads (renderChunks cs)
      = (cs.map (fun c => c.Deleted ++ c.Equal)).flatten := by
  induction cs with
  | nil => rfl
  | cons c cs ih =>
    rw [renderChunks_cons, origPayloads_append, origPayloads_renderChunk,
      List.map_cons, List.flatten_cons, ih]

theorem newPayloads_renderChunks (cs : List Chunk) :
    newPayloads (renderChunks cs)
      = (cs.map (fun c => c.Added ++ c.Equal)).flatten := by
  induction cs with
  | nil => rfl
  | cons c cs ih =>
    rw [renderChunks_cons, newPayloads_append, newPayloads_renderChunk,
      List.map_cons, List.flatten_cons, ih]

theorem ctxPayloads_renderChunks (cs : List Chunk) :
    ctxPayloads (renderChunks cs) = (cs.map Chunk.Equal).flatten := by
  induction cs with
  | nil => rfl
  | cons c cs ih =>
    rw [renderChunks_cons, ctxPayloads_append, ctxPayloads_renderChunk,
      List.map_cons, List.flatten_cons, ih]

theorem lcsF_sub_left : ∀ (fuel : Nat) (xs ys : List String),
    List.Sublist (lcsF fuel xs ys) xs := by
  intro fuel
  induction fuel with
  | zero => intro xs ys; exact List.nil_sublist xs
  | succ f ih =>
    intro xs ys
    match xs, ys with
    | [], _ => exact List.nil_sublist _
    | _ :: _, [] => exact List.nil_sublist _
    | x :: xs, y :: ys =>
      show List.Sublist (if x = y then x :: lcsF f xs ys else _) (x :: xs)
      split
      · exact List.Sublist.cons₂ x (ih xs ys)
      · dsimp only
        split
        · exact (ih xs (y :: ys)).trans (List.sublist_cons_self x xs)
        · exact ih (x :: xs) ys

theorem lcsF_sub_right : ∀ (fuel : Nat) (xs ys : List String),
    List.Sublist (lcsF fuel xs ys) ys := by
  intro fuel
  induction fuel with
  | zero => intro xs ys; exact List.nil_sublist ys
  | succ f ih =>
    intro xs ys
    match xs, ys with
    | [], _ => exact List.nil_sublist _
    | _ :: _, [] => exact List.nil_sublist _
    | x :: xs, y :: ys =>
      show List.Sublist (if x = y then x :: lcsF f xs ys else _) (y :: ys)
      split
      · rename_i hxy
        rw [hxy]
        exact List.Sublist.cons₂ y (ih xs ys)
      · dsimp only
        split
        · exact ih xs (y :: ys)
        · exact (ih (x :: xs) ys).trans (List.sublist_cons_self y ys)

theorem lcs_sub_left (a b : List String) : List.Sublist (lcs a b) a :=
  lcsF_sub_left _ a b

theorem lcs_sub_right (a b : List String) : List.Sublist (lcs a b) b :=
  lcsF_sub_right _ a b

theorem dropWhile_ne_of_mem {z : String} :
    ∀ {xs : List String}, z ∈ xs →
    xs.dropWhile (fun w => w ≠ z)
      = z :: (xs.dropWhile (fun w => w ≠ z)).drop 1 := by
  intro xs
  induction xs with
  | nil => intro h; simp at h
  | cons x xr ih =>
    intro hm
    by_cases hx : x = z
    · subst hx
      rw [List.dropWhile_cons, if_neg (by simp)]
      simp
    · rw [List.dropWhile_cons, if_pos (by simp [Ne.symm, hx])]
      exact ih (by rcases List.mem_cons.mp hm with h1 | h2
                   · exact absurd h1.symm hx
                   · exact h2)

theorem sublist_dropWhile_tail {z : String} :
    ∀ {zs' xs : List String}, List.Sublist (z :: zs') xs →
    List.Sublist zs' ((xs.dropWhile (fun w => w ≠ z)).drop 1) := by
  intro zs' xs
  induction xs with
  | nil => intro h; exact absurd (List.sublist_nil.mp h) (by simp)
  | cons x xr ih =>
    intro h
    by_cases hx : x = z
    · subst hx
      rw [List.dropWhile_cons, if_neg (by simp), List.drop_one,
        List.tail_cons]
      cases h with
      | cons _ h' => exact ((List.sublist_cons_self x zs').trans h')
      | cons₂ _ h' => exact h'
    · rw [List.dropWhile_cons, if_pos (by simp [Ne.symm, hx])]
      cases h with
      | cons _ h' => exact ih h'
      | cons₂ _ h' => exact absurd rfl hx

theorem rawChunks_old : ∀ (zs xs ys : List String),
    List.Sublist zs xs →
    ((rawChunks xs ys zs).map (fun c => c.Deleted ++ c.Equal)).flatten = xs := by
  intro zs
  induction zs with
  | nil =>
    intro xs ys _
    rw [rawChunks]
    by_cases hx : xs.isEmpty = true <;> by_cases hy : ys.isEmpty = true <;>
      simp_all [List.isEmpty_eq_true]
  | cons z zs' ih =>
    intro xs ys hz
    have hzx : z ∈ xs := hz.subset (by simp)
    rw [rawChunks]
    rw [List.map_append, List.map_append, List.flatten_append,
      List.flatten_append]
    have hdy : (((if ((ys.takeWhile (fun w => w ≠ z))).isEmpty then
          ([] : List Chunk)
          else [⟨ys.takeWhile (fun w => w ≠ z), [], []⟩]).map
            (fun c => c.Deleted ++ c.Equal)).flatten : List String) = [] := by
      split <;> simp
    have hdx : (((if ((xs.takeWhile (fun w => w ≠ z))).isEmpty then
          ([] : List Chunk)
          else [⟨[], xs.takeWhile (fun w => w ≠ z), []⟩]).map
            (fun c => c.Deleted ++ c.Equal)).flatten : List String)
        = xs.takeWhile (fun w => w ≠ z) := by
      split
      · rename_i hemp
        simp_all [List.isEmpty_eq_true]
      · simp
    rw [hdy, hdx]
    rw [List.map_cons, List.flatten_cons]
    rw [ih ((xs.dropWhile (fun w => w ≠ z)).drop 1)
      ((ys.dropWhile (fun w => w ≠ z)).drop 1) (sublist_dropWhile_tail hz)]
    dsimp only
    simp only [List.nil_append, List.append_nil, List.singleton_append]
    rw [← dropWhile_ne_of_mem hzx]
    exact List.takeWhile_append_dropWhile _ _

theorem rawChunks_new : ∀ (zs xs ys : List String),
    List.Sublist zs ys →
    ((rawChunks xs ys zs).map (fun c => c.Added ++ c.Equal)).flatten = ys := by
  intro zs
  induction zs with
  | nil =>
    intro xs ys _
    rw [rawChunks]
    by_cases hx : xs.isEmpty = true <;> by_cases hy : ys.isEmpty = true <;>
      simp_all [List.isEmpty_eq_true]
  | cons z zs' ih =>
    intro xs ys hz
    have hzy : z ∈ ys := hz.subset (by simp)
    rw [rawChunks]
    rw [List.map_append, List.map_append, List.flatten_append,
      List.flatten_append]
    have hdx : (((if ((xs.takeWhile (fun w => w ≠ z))).isEmpty then
          ([] : List Chunk)
          else [⟨[], xs.takeWhile (fun w => w ≠ z), []⟩]).map
            (fun c => c.Added ++ c.Equal)).flatten : List String) = [] := by
      split <;> simp
    have hdy : (((if ((ys.takeWhile (fun w => w ≠ z))).isEmpty then
          ([] : List Chunk)
          else [⟨ys.takeWhile (fun w => w ≠ z), [], []⟩]).map
            (fun c => c.Added ++ c.Equal)).flatten : List String)
        = ys.takeWhile (fun w => w ≠ z) := by
      split
      · rename_i hemp
        simp_all [List.isEmpty_eq_true]
      · simp
    rw [hdx, hdy]
    rw [List.map_cons, List.flatten_cons]
    rw [ih ((xs.dropWhile (fun w => w ≠ z)).drop 1)
      ((ys.dropWhile (fun w => w ≠ z)).drop 1) (sublist_dropWhile_tail hz)]
    dsimp only
    simp only [List.nil_append, List.append_nil, List.singleton_append]
    rw [← dropWhile_ne_of_mem hzy]
    exact List.takeWhile_append_dropWhile _ _

theorem rawChunks_ctx : ∀ (zs xs ys : List String),
    ((rawChunks xs ys zs).map Chunk.Equal).flatten = zs := by
  intro zs
  induction zs with
  | nil =>
    intro xs ys
    rw [rawChunks]
    by_cases hx : xs.isEmpty = true <;> by_cases hy : ys.isEmpty = true <;>
      simp_all [List.isEmpty_eq_true]
  | cons z zs' ih =>
    intro xs ys
    rw [rawChunks]
    rw [List.map_append, List.map_append, List.flatten_append,
      List.flatten_append]
    have hdx : (((if ((xs.takeWhile (fun w => w ≠ z))).isEmpty then
          ([] : List Chunk)
          else [⟨[], xs.takeWhile (fun w => w ≠ z), []⟩]).map
            Chunk.Equal).flatten : List String) = [] := by
      split <;> simp
    have hdy : (((if ((ys.takeWhile (fun w => w ≠ z))).isEmpty then
          ([] : List Chunk)
          else [⟨ys.takeWhile (fun w => w ≠ z), [], []⟩]).map
            Chunk.Equal).flatten : List String) = [] := by
      split <;> simp
    rw [hdx, hdy]
    rw [List.map_cons, List.flatten_cons]
    rw [ih ((xs.dropWhile (fun w => w ≠ z)).drop 1)
      ((ys.dropWhile (fun w => w ≠ z)).drop 1)]
    rfl

theorem renderChunks_mergeEq : ∀ (cs : List Chunk),
    renderChunks (mergeEqChunks cs) = renderChunks cs := by
  intro cs
  induction cs with
  | nil => rfl
  | cons c cs ih =>
    rw [mergeEqChunks]
    cases hm : mergeEqChunks cs with
    | nil =>
      rw [hm] at ih
      rw [renderChunks_cons, renderChunks_cons, ← ih]
    | cons d ds =>
      rw [hm] at ih
      dsimp only
      split
      · rename_i heq
        simp only [Bool.and_eq_true, isEqOnly, List.isEmpty_eq_true] at heq
        obtain ⟨⟨hca, hcd⟩, hda, hdd⟩ := heq
        rw [renderChunks_cons, renderChunks_cons, ← ih, renderChunks_cons]
        unfold renderChunk
        rw [hca, hcd, hda, hdd]
        simp [List.map_append]
      · rw [renderChunks_cons, ih, renderChunks_cons]

/-- C3: confirmed. At an added line the merger collects the maximal `+`
runs of both sides (`interAddedLines` advances both remainders exactly
past their runs) and emits the rendered line-diff of the two runs: its
` `/`-` lines reconstruct exactly the old run, its ` `/`+` lines
reconstruct exactly the new run, and its context lines form a common
subsequence of both runs; on the E4 runs `A,B` versus `A,C` this yields
` A`, `-B`, `+C`, and the whole E4 merge produces the body
` L5\n A\n-B\n+C\n`. -/
theorem interAdded_run_diff (oldRem newRem : List String) :
    (interAddedLines oldRem newRem).2.1
        = oldRem.dropWhile (fun l => startsWithCh l '+')
      ∧ (interAddedLines oldRem newRem).2.2
        = newRem.dropWhile (fun l => startsWithCh l '+')
      ∧ origPayloads (interAddedLines oldRem newRem).1
        = (oldRem.takeWhile (fun l => startsWithCh l '+')).map goTail1
      ∧ newPayloads (interAddedLines oldRem newRem).1
        = (newRem.takeWhile (fun l => startsWithCh l '+')).map goTail1
      ∧ ctxPayloads (interAddedLines oldRem newRem).1
        = lcs ((oldRem.takeWhile (fun l => startsWithCh l '+')).map goTail1)
            ((newRem.takeWhile (fun l => startsWithCh l '+')).map goTail1)
      ∧ List.Sublist
          (lcs ((oldRem.takeWhile (fun l => startsWithCh l '+')).map goTail1)
            ((newRem.takeWhile (fun l => startsWithCh l '+')).map goTail1))
          ((oldRem.takeWhile (fun l => startsWithCh l '+')).map goTail1)
      ∧ List.Sublist
          (lcs ((oldRem.takeWhile (fun l => startsWithCh l '+')).map goTail1)
            ((newRem.takeWhile (fun l => startsWithCh l '+')).map goTail1))
          ((newRem.takeWhile (fun l => startsWithCh l '+')).map goTail1)
      ∧ interAddedLines ["+A", "+B"] ["+A", "+C"] = ([" A", "-B", "+C"], [], [])
      ∧ mergeOverlappingHunks [exE4Old] [exE4New]
          = Except.ok (some exE4Merged) := by
  refine ⟨rfl, rfl, ?_, ?_, ?_, lcs_sub_left _ _, lcs_sub_right _ _,
    by decide, by decide⟩
  · show origPayloads (renderChunks (diffChunks
        ((oldRem.takeWhile (fun l => startsWithCh l '+')).map goTail1)
        ((newRem.takeWhile (fun l => startsWithCh l '+')).map goTail1))) = _
    unfold diffChunks
    rw [renderChunks_mergeEq, origPayloads_renderChunks,
      rawChunks_old _ _ _ (lcs_sub_left _ _)]
  · show newPayloads (renderChunks (diffChunks
        ((oldRem.takeWhile (fun l => startsWithCh l '+')).map goTail1)
        ((newRem.takeWhile (fun l => startsWithCh l '+')).map goTail1))) = _
    unfold diffChunks
    rw [renderChunks_mergeEq, newPayloads_renderChunks,
      rawChunks_new _ _ _ (lcs_sub_right _ _)]
  · show ctxPayloads (renderChunks (diffChunks
        ((oldRem.takeWhile (fun l => startsWithCh l '+')).map goTail1)
        ((newRem.takeWhile (fun l => startsWithCh l '+')).map goTail1))) = _
    unfold diffChunks
    rw [renderChunks_mergeEq, ctxPayloads_renderChunks, rawChunks_ctx]

/-! ## Interdiff then apply (C1) -/

/-- C1 counterexample: both diffs apply cleanly to the ten-line source,
but the interdiff copies the disjoint new hunk verbatim without shifting
its start for the line the old diff deleted, so applying the interdiff to
the old-patched text fails instead of producing the new-patched text. -/
theorem interdiff_apply_counterexample :
    applyDiff exSrc10 exOldFd = Except.ok "a\nc\nd\ne\nf\ng\nh\ni\nj\n"
      ∧ applyDiff exSrc10 exNewFd
          = Except.ok "a\nb\nc\nd\ne\nf\ng\nH\ni\nj\n"
      ∧ interFileDiff exOldFd exNewFd = Except.ok exC1Inter
      ∧ applyDiff "a\nc\nd\ne\nf\ng\nh\ni\nj\n" exC1Inter
          = Except.error GoErr.contentMismatch := by
  refine ⟨by decide, by decide, by decide, by decide⟩

theorem applyHunks_singleton_spec (src : List String) (h : Hunk)
    (out : List String) (happ : applyHunks src 1 [h] = .ok out) :
    out = src.take (h.OrigStartLine - 1).toNat
        ++ newPayloads (bodyLines h)
        ++ src.drop (h.OrigStartLine + (hunkAnchors h : Int) - 1).toNat
      ∧ anchorPayloads (bodyLines h)
          = (src.drop (h.OrigStartLine - 1).toNat).take (hunkAnchors h)
      ∧ 1 ≤ h.OrigStartLine
      ∧ h.OrigStartLine + (hunkAnchors h : Int) ≤ (src.length : Int) + 1 := by
  simp only [applyHunks] at happ
  cases hsl : goSlice src (1 - 1) (h.OrigStartLine - 1) with
  | error e => rw [hsl] at happ; exact absurd happ (by simp)
  | ok pre =>
    rw [hsl] at happ; dsimp only at happ
    cases hal : applyLines src h.OrigStartLine (bodyLines h) with
    | error e => rw [hal] at happ; exact absurd happ (by simp)
    | ok p =>
      obtain ⟨c1, out1⟩ := p
      rw [hal] at happ; dsimp only at happ
      cases hsf : goSliceFrom src (c1 - 1) with
      | error e => rw [hsf] at happ; exact absurd happ (by simp)
      | ok tail =>
        rw [hsf] at happ; dsimp only at happ
        have hout : pre ++ out1 ++ tail = out := by simpa using happ
        obtain ⟨hg1, hg2, hg3, hg4⟩ := goSlice_ok hsl
        obtain ⟨hc1, hout1, hanch, _, _⟩ := applyLines_ok_spec src _ _ _ _ hal
        obtain ⟨hf1, hf2, hf3⟩ := goSliceFrom_ok hsf
        subst hout
        have h1le : 1 ≤ h.OrigStartLine := by omega
        subst hg4 hout1 hf3 hc1
        refine ⟨?_, ?_, h1le, ?_⟩
        · simp only [hunkAnchors, show (1 - 1 : Int) = 0 from rfl,
            Int.toNat_zero, List.drop_zero, sub_zero]
        · rw [hanch]
          simp only [hunkAnchors]
        · simp only [hunkAnchors]
          omega

theorem interLoop_disjoint_single (ho hn : Hunk)
    (hd : ho.OrigStartLine + ho.OrigLines < hn.OrigStartLine) :
    interLoop 3 [ho] [hn] [] = .ok [revertedHunk ho, hn] := by
  rw [show (3 : Nat) = 2 + 1 from rfl, interLoop]
  dsimp only
  rw [if_pos hd]
  rw [show (2 : Nat) = 1 + 1 from rfl, interLoop]
  simp

/-- C1: spec corrected. The interdiff correctness equation fails in
general — the interdiff copies a disjoint new hunk verbatim without
shifting its start for lines the old diff added or deleted (see the
counterexample) — but holds when the diffs are single disjoint hunks and
the old diff preserves the line count: then the interdiff is the reverted
old hunk followed by the new hunk, and applying it to the old-patched
text yields exactly the new-patched text. -/
theorem interdiff_apply_amended (S T1 T2 : String) (oldFd newFd : FileDiff)
    (ho hn : Hunk)
    (hOld : oldFd.Hunks = [ho])
    (hNew : newFd.Hunks = [hn])
    (hwo : chainWF 1 0 [ho] = true)
    (hwn : chainWF 1 0 [hn] = true)
    (hso : spansOk (splitNl S).length [ho] = true)
    (hsn : spansOk (splitNl S).length [hn] = true)
    (hol : ho.OrigLines = (hunkAnchors ho : Int))
    (hcnt : hunkNews ho = hunkAnchors ho)
    (hdisj : ho.OrigStartLine + (hunkAnchors ho : Int) < hn.OrigStartLine)
    (happ1 : applyDiff S oldFd = Except.ok T1)
    (happ2 : applyDiff S newFd = Except.ok T2) :
    ∃ fd, interFileDiff oldFd newFd = Except.ok fd
      ∧ fd.Hunks = [revertedHunk ho, hn]
      ∧ applyDiff T1 fd = Except.ok T2 := by
  simp only [chainWF, Bool.and_eq_true, decide_eq_true_eq] at hwo hwn
  obtain ⟨⟨⟨hwbO, h1O⟩, hnsO⟩, -⟩ := hwo
  obtain ⟨⟨⟨hwbN, h1N⟩, hnsN⟩, -⟩ := hwn
  have hAO : ho.OrigStartLine + (anchorsOf (bodyLines ho) : Int)
      ≤ ((splitNl S).length : Int) := by
    have := spansOk_spec hso ho (by simp)
    simpa [hunkAnchors] using this
  have hAN : hn.OrigStartLine + (anchorsOf (bodyLines hn) : Int)
      ≤ ((splitNl S).length : Int) := by
    have := spansOk_spec hsn hn (by simp)
    simpa [hunkAnchors] using this
  have hcnt' : newsOf (bodyLines ho) = anchorsOf (bodyLines ho) := by
    simpa [hunkNews, hunkAnchors] using hcnt
  have hdisj' : ho.OrigStartLine + (anchorsOf (bodyLines ho) : Int)
      < hn.OrigStartLine := by
    simpa [hunkAnchors] using hdisj
  unfold applyDiff at happ1 happ2
  rw [hOld] at happ1
  rw [hNew] at happ2
  cases hah1 : applyHunks (splitNl S) 1 [ho] with
  | error e => rw [hah1] at happ1; exact absurd happ1 (by simp)
  | ok out1 =>
  rw [hah1] at happ1; dsimp only at happ1
  have hT1 : joinNl out1 = T1 := by simpa using happ1
  cases hah2 : applyHunks (splitNl S) 1 [hn] with
  | error e => rw [hah2] at happ2; exact absurd happ2 (by simp)
  | ok out2 =>
  rw [hah2] at happ2; dsimp only at happ2
  have hT2 : joinNl out2 = T2 := by simpa using happ2
  obtain ⟨hout1eq, hanchO, -, -⟩ := applyHunks_singleton_spec _ _ _ hah1
  obtain ⟨hout2eq, hanchN, -, -⟩ := applyHunks_singleton_spec _ _ _ hah2
  simp only [hunkAnchors] at hout1eq hanchO hout2eq hanchN
  have hnews1len : (newPayloads (bodyLines ho)).length
      = anchorsOf (bodyLines ho) := by
    rw [newPayloads_length, hcnt']
  have htakelen : ((splitNl S).take (ho.OrigStartLine - 1).toNat).length
      = (ho.OrigStartLine - 1).toNat := by
    rw [List.length_take]
    omega
  have hout1assoc : out1 = (splitNl S).take (ho.OrigStartLine - 1).toNat
      ++ (newPayloads (bodyLines ho)
        ++ (splitNl S).drop
          (ho.OrigStartLine + (anchorsOf (bodyLines ho) : Int) - 1).toNat) := by
    rw [hout1eq, List.append_assoc]
  have hWlen : ((splitNl S).take (ho.OrigStartLine - 1).toNat
      ++ newPayloads (bodyLines ho)).length
      = (ho.OrigStartLine + (anchorsOf (bodyLines ho) : Int) - 1).toNat := by
    rw [List.length_append, htakelen, hnews1len]
    omega
  have hout1len : out1.length = (splitNl S).length := by
    rw [hout1eq]
    simp only [List.length_append, htakelen, hnews1len, List.length_drop]
    omega
  have hdropAg : ∀ k : Nat,
      (ho.OrigStartLine + (anchorsOf (bodyLines ho) : Int) - 1).toNat ≤ k →
      out1.drop k = (splitNl S).drop k := by
    intro k hk
    rw [hout1eq]
    rw [show k = ((splitNl S).take (ho.OrigStartLine - 1).toNat
        ++ newPayloads (bodyLines ho)).length
        + (k - (ho.OrigStartLine + (anchorsOf (bodyLines ho) : Int) - 1).toNat)
      from by rw [hWlen]; omega]
    rw [List.drop_append, List.drop_drop]
    congr 1
    rw [hWlen]
  have hwfl : ∀ h' ∈ [ho], wfHunkBody h' = true := by
    intro h' hm
    rcases List.mem_cons.mp hm with rfl | hm2
    · exact hwbO
    · simp at hm2
  have hnoNl1 := applyHunks_out_noNl (splitNl S) (splitNl_noNl S) [ho] 1 out1
    hwfl hah1
  have hlen1 : 1 ≤ (splitNl S).length :=
    List.length_pos.mpr (splitNl_ne_nil S)
  have hsp1 : splitNl T1 = out1 := by
    rw [← hT1]
    exact splitNl_joinNl out1 (List.ne_nil_of_length_pos (by omega)) hnoNl1
  have hdisjF : ho.OrigStartLine + ho.OrigLines < hn.OrigStartLine := by
    rw [hol]
    exact hdisj
  have hbv : ∀ l ∈ bodyLines ho, validLine l = true := wfHunkBody_valid hwbO
  obtain ⟨hr1, hr2, hr3, hr4⟩ := rev_counts (bodyLines ho) hbv
  have hbrh : bodyLines (revertedHunk ho) = (bodyLines ho).map revertedLine := by
    rw [bodyLines_revertedHunk, wfHunkBody_bodyLines hwbO]
  have hrhS : (revertedHunk ho).OrigStartLine = ho.OrigStartLine := by
    show ho.NewStartLine = _
    omega
  have hc1v : (revertedHunk ho).OrigStartLine
      + (anchorsOf (bodyLines (revertedHunk ho)) : Int)
      = ho.OrigStartLine + (anchorsOf (bodyLines ho) : Int) := by
    rw [hbrh, hr1, hrhS, hcnt']
  have hgs1 : goSlice out1 (1 - 1) ((revertedHunk ho).OrigStartLine - 1)
      = .ok ((splitNl S).take (ho.OrigStartLine - 1).toNat) := by
    rw [hrhS]
    unfold goSlice
    rw [if_pos ⟨by omega, by omega, by omega⟩]
    rw [show ((1 : Int) - 1).toNat = 0 from rfl, List.drop_zero]
    rw [show (ho.OrigStartLine - 1 - (1 - 1)) = ho.OrigStartLine - 1 from by
      omega]
    congr 1
    rw [hout1assoc]
    exact List.take_left' htakelen
  have hal1 : applyLines out1 (revertedHunk ho).OrigStartLine
      (bodyLines (revertedHunk ho))
      = .ok ((revertedHunk ho).OrigStartLine
          + (anchorsOf (bodyLines (revertedHunk ho)) : Int),
        newPayloads (bodyLines (revertedHunk ho))) := by
    apply applyLines_build
    · intro l hl
      rw [hbrh] at hl
      obtain ⟨y, hy, rfl⟩ := List.mem_map.mp hl
      exact data_ne_nil_revertedLine (validLine_spec y (hbv y hy)).1
    · rw [hrhS]
      omega
    · rw [hbrh, hr3, hr1, hrhS, hcnt']
      rw [hout1assoc, List.drop_left' htakelen]
      exact (List.take_left' hnews1len).symm
    · rw [hbrh, hr1, hrhS, hcnt']
      omega
  have hgs2 : goSlice out1 ((revertedHunk ho).OrigStartLine
      + (anchorsOf (bodyLines (revertedHunk ho)) : Int) - 1)
      (hn.OrigStartLine - 1)
      = .ok (((splitNl S).drop
          (ho.OrigStartLine + (anchorsOf (bodyLines ho) : Int) - 1).toNat).take
        ((hn.OrigStartLine - 1).toNat
          - (ho.OrigStartLine + (anchorsOf (bodyLines ho) : Int) - 1).toNat)) := by
    rw [hc1v]
    unfold goSlice
    rw [if_pos ⟨by omega, by omega, by omega⟩]
    rw [hdropAg (ho.OrigStartLine + (anchorsOf (bodyLines ho) : Int) - 1).toNat
      (le_refl _)]
    congr 2
    omega
  have hal2 : applyLines out1 hn.OrigStartLine (bodyLines hn)
      = .ok (hn.OrigStartLine + (anchorsOf (bodyLines hn) : Int),
          newPayloads (bodyLines hn)) := by
    apply applyLines_build
    · intro l hl
      exact (validLine_spec l (wfHunkBody_valid hwbN l hl)).1
    · exact h1N
    · rw [hdropAg (hn.OrigStartLine - 1).toNat (by omega)]
      exact hanchN
    · rw [hout1len]
      exact hAN
  have hgsf : goSliceFrom out1 (hn.OrigStartLine
      + (anchorsOf (bodyLines hn) : Int) - 1)
      = .ok ((splitNl S).drop
          (hn.OrigStartLine + (anchorsOf (bodyLines hn) : Int) - 1).toNat) := by
    unfold goSliceFrom
    rw [if_pos ⟨by omega, by omega⟩]
    rw [hdropAg _ (by omega)]
  have hblock : (splitNl S).take (ho.OrigStartLine - 1).toNat
      ++ ((splitNl S).drop (ho.OrigStartLine - 1).toNat).take
          (anchorsOf (bodyLines ho))
      ++ (((splitNl S).drop
          (ho.OrigStartLine + (anchorsOf (bodyLines ho) : Int) - 1).toNat).take
        ((hn.OrigStartLine - 1).toNat
          - (ho.OrigStartLine + (anchorsOf (bodyLines ho) : Int) - 1).toNat))
      = (splitNl S).take (hn.OrigStartLine - 1).toNat := by
    rw [← List.take_add]
    rw [show (ho.OrigStartLine - 1).toNat + anchorsOf (bodyLines ho)
      = (ho.OrigStartLine + (anchorsOf (bodyLines ho) : Int) - 1).toNat from by
        omega]
    rw [← List.take_add]
    congr 1
    omega
  have hstep : applyHunks out1 1 [revertedHunk ho, hn] = .ok out2 := by
    simp only [applyHunks]
    rw [hgs1]
    dsimp only
    rw [hal1]
    dsimp only
    rw [hgs2]
    dsimp only
    rw [hal2]
    dsimp only
    rw [hgsf]
    dsimp only
    congr 1
    rw [hout2eq]
    rw [show newPayloads (bodyLines (revertedHunk ho))
      = anchorPayloads (bodyLines ho) from by rw [hbrh, hr4]]
    rw [hanchO]
    rw [show ∀ (a b c d e : List String), a ++ b ++ (c ++ d ++ e)
      = (a ++ b ++ c) ++ d ++ e from by intro a b c d e; simp]
    rw [hblock]
  have hfd : interFileDiff oldFd newFd = .ok
      { OrigName := oldFd.NewName
        OrigTime := oldFd.NewTime
        NewName := newFd.NewName
        NewTime := newFd.NewTime
        Extended := []
        Hunks := [revertedHunk ho, hn] } := by
    unfold interFileDiff
    rw [hOld, hNew]
    rw [show ([ho] : List Hunk).length + ([hn] : List Hunk).length + 1 = 3
      from rfl]
    rw [interLoop_disjoint_single ho hn hdisjF]
  refine ⟨_, hfd, rfl, ?_⟩
  unfold applyDiff
  dsimp only
  rw [hsp1, hstep]
  dsimp only
  rw [hT2]

/-- The amended interdiff correctness at a concrete instance: a
line-replacing old hunk and a disjoint later new hunk compose exactly. -/
theorem interdiff_apply_amended_witness :
    applyDiff exSrc10 exC1OldOk = Except.ok "a\nB\nc\nd\ne\nf\ng\nh\ni\nj\n"
      ∧ applyDiff exSrc10 exNewFd
          = Except.ok "a\nb\nc\nd\ne\nf\ng\nH\ni\nj\n"
      ∧ ∃ fd, interFileDiff exC1OldOk exNewFd = Except.ok fd
          ∧ fd.Hunks = [revertedHunk (mkHunk 2 1 2 1 ["-b", "+B"]),
              mkHunk 6 5 6 5 [" f", " g", "-h", "+H", " i", " j"]]
          ∧ applyDiff "a\nB\nc\nd\ne\nf\ng\nh\ni\nj\n" fd
              = Except.ok "a\nb\nc\nd\ne\nf\ng\nH\ni\nj\n" :=
  ⟨by decide, by decide,
    interdiff_apply_amended exSrc10 "a\nB\nc\nd\ne\nf\ng\nh\ni\nj\n"
      "a\nb\nc\nd\ne\nf\ng\nH\ni\nj\n" exC1OldOk exNewFd
      (mkHunk 2 1 2 1 ["-b", "+B"])
      (mkHunk 6 5 6 5 [" f", " g", "-h", "+H", " i", " j"])
      (by decide) (by decide) (by decide) (by decide) (by decide) (by decide)
      (by decide) (by decide) (by decide) (by decide) (by decide)⟩

/-! ## The assembler on split-free chunk lists (C6) -/

theorem asmShape_cons {c : Chunk} {rest : List Chunk}
    (h : asmShape (c :: rest) = true) :
    (isChangeChunk c || isEqChunk c) = true ∧ asmShape rest = true := by
  cases rest with
  | nil => exact ⟨h, rfl⟩
  | cons d rest' =>
    simp only [asmShape, Bool.and_eq_true] at h
    exact ⟨h.1.1, h.2⟩

theorem asmShape_adj {c d : Chunk} {rest : List Chunk}
    (h : asmShape (c :: d :: rest) = true) :
    ¬(isEqChunk c = true ∧ isEqChunk d = true) := by
  simp only [asmShape, Bool.and_eq_true, Bool.not_eq_true',
    Bool.and_eq_false_iff] at h
  intro hc
  rcases h.1.2 with h1 | h1 <;> rw [h1] at hc <;> simp at hc

theorem asmShape_mem : ∀ {l : List Chunk}, asmShape l = true →
    ∀ c ∈ l, (isChangeChunk c || isEqChunk c) = true := by
  intro l
  induction l with
  | nil => intro _ c hc; simp at hc
  | cons a l ih =>
    intro h c hc
    obtain ⟨h1, h2⟩ := asmShape_cons h
    rcases List.mem_cons.mp hc with rfl | hc'
    · exact h1
    · exact ih h2 c hc'

theorem asmShape_pair : ∀ {l : List Chunk}, asmShape l = true →
    ∀ (pre : List Chunk) (a b : Chunk) (post : List Chunk),
    l = pre ++ a :: b :: post → ¬(isEqChunk a = true ∧ isEqChunk b = true) := by
  intro l
  induction l with
  | nil =>
    intro _ pre a b post hl
    exact absurd hl.symm (by simp)
  | cons x l ih =>
    intro h pre a b post hl
    cases pre with
    | nil =>
      simp only [List.nil_append] at hl
      injection hl with h1 h2
      subst h1
      subst h2
      exact asmShape_adj h
    | cons y pre' =>
      injection hl with h1 h2
      exact ih (asmShape_cons h).2 pre' a b post h2

theorem chunk_not_empty {c : Chunk}
    (h : (isChangeChunk c || isEqChunk c) = true) : chunkEmpty c = false := by
  rw [Bool.eq_false_iff]
  intro hc
  simp only [chunkEmpty, Bool.and_eq_true, List.isEmpty_eq_true] at hc
  obtain ⟨⟨hA, hD⟩, hE⟩ := hc
  simp only [isChangeChunk, isEqChunk, Bool.or_eq_true, Bool.and_eq_true,
    Bool.not_eq_true', List.isEmpty_eq_true, List.isEmpty_eq_false] at h
  rcases h with ⟨⟨_, h2⟩, _⟩ | ⟨⟨_, _⟩, h3⟩
  · rcases h2 with h2 | h2
    · exact h2 hA
    · exact h2 hD
  · exact h3 hE

theorem dropWhile_head_false {p : Chunk → Bool} : ∀ {l : List Chunk},
    (∀ x ∈ l, p x = false) → l.dropWhile p = l := by
  intro l h
  cases l with
  | nil => rfl
  | cons x xs => rw [List.dropWhile_cons, if_neg (by simp [h x (by simp)])]

theorem dropEndWhile_last_false {p : Chunk → Bool} {l : List Chunk}
    (h : ∀ x ∈ l, p x = false) : dropEndWhile p l = l := by
  unfold dropEndWhile
  rw [dropWhile_head_false (fun x hx => h x (List.mem_reverse.mp hx))]
  exact List.reverse_reverse l

theorem updateLast_concat (f : Chunk → Chunk) :
    ∀ (l : List Chunk) (x : Chunk), updateLast f (l ++ [x]) = l ++ [f x] := by
  intro l
  induction l with
  | nil => intro x; rfl
  | cons a l ih =>
    intro x
    cases hl : l ++ [x] with
    | nil => exact absurd hl (by simp)
    | cons b rest =>
      show updateLast f (a :: (l ++ [x])) = _
      rw [hl, updateLast, ← hl, ih]
      simp

theorem asmChunk_noSplit (st : AsmState) (c : Chunk)
    (h : c.Equal.length ≤ 2 * contextLines + 1) :
    asmChunk st c = ⟨st.cOld + (c.Deleted.length : Int) + c.Equal.length,
      st.cNew + (c.Added.length : Int) + c.Equal.length,
      st.startO, st.startN, st.body ++ asmRender c, st.hunks⟩ := by
  unfold asmChunk
  rw [if_neg (by omega)]
  simp [asmRender, List.append_assoc]

theorem foldl_asmChunk_noSplit : ∀ (l : List Chunk) (st : AsmState),
    (∀ c ∈ l, c.Equal.length ≤ 2 * contextLines + 1) →
    ∃ dO dN, l.foldl asmChunk st
      = ⟨st.cOld + dO, st.cNew + dN, st.startO, st.startN,
         st.body ++ (l.map asmRender).flatten, st.hunks⟩ := by
  intro l
  induction l with
  | nil =>
    intro st _
    exact ⟨0, 0, by simp⟩
  | cons c rest ih =>
    intro st hle
    rw [List.foldl_cons, asmChunk_noSplit st c (hle c (by simp))]
    obtain ⟨dO, dN, hfold⟩ :=
      ih ⟨st.cOld + (c.Deleted.length : Int) + c.Equal.length,
        st.cNew + (c.Added.length : Int) + c.Equal.length,
        st.startO, st.startN, st.body ++ asmRender c, st.hunks⟩
      (fun c' hc' => hle c' (List.mem_cons_of_mem c hc'))
    rw [hfold]
    refine ⟨(c.Deleted.length : Int) + c.Equal.length + dO,
      (c.Added.length : Int) + c.Equal.length + dN, ?_⟩
    simp only [List.map_cons, List.flatten_cons, List.append_assoc,
      AsmState.mk.injEq]
    refine ⟨by omega, by omega, trivial, trivial, trivial, trivial⟩

theorem takeWhile_append_all {p : String → Bool} : ∀ {xs : List String}
    (ys : List String), (∀ x ∈ xs, p x = true) →
    (xs ++ ys).takeWhile p = xs ++ ys.takeWhile p := by
  intro xs
  induction xs with
  | nil => intro ys _; rfl
  | cons x xs ih =>
    intro ys h
    rw [List.cons_append, List.takeWhile_cons, if_pos (h x (by simp))]
    rw [ih ys (fun y hy => h y (List.mem_cons_of_mem x hy))]
    rfl

theorem takeWhile_cons_false {p : String → Bool} {z : String}
    (h : p z = false) (zs : List String) : (z :: zs).takeWhile p = [] := by
  rw [List.takeWhile_cons, if_neg (by simp [h])]

theorem trailing_append_all {p : String → Bool} (xs : List String)
    {ys : List String} (h : ∀ y ∈ ys, p y = true) :
    ((xs ++ ys).reverse.takeWhile p).length
      = ys.length + (xs.reverse.takeWhile p).length := by
  rw [List.reverse_append,
    takeWhile_append_all xs.reverse (fun y hy => h y (List.mem_reverse.mp hy))]
  simp

theorem trailing_end_nonctx {p : String → Bool} (xs : List String)
    {ys : List String} (hne : ys ≠ []) (h : ∀ y ∈ ys, p y = false) :
    (xs ++ ys).reverse.takeWhile p = [] := by
  rw [List.reverse_append]
  cases hys : ys.reverse with
  | nil => exact absurd (by simpa using hys) hne
  | cons z zr =>
    rw [List.cons_append]
    exact takeWhile_cons_false
      (h z (by rw [← List.mem_reverse, hys]; simp)) _

theorem asmRender_change_ne_nil {c : Chunk} (hc : isChangeChunk c = true) :
    asmRender c ≠ [] := by
  intro hnil
  have hlen := congrArg List.length hnil
  simp only [asmRender, List.length_append, List.length_map,
    List.length_nil] at hlen
  simp only [isChangeChunk, Bool.and_eq_true, Bool.or_eq_true,
    Bool.not_eq_true', List.isEmpty_eq_true, List.isEmpty_eq_false] at hc
  rcases hc.1.2 with h | h
  · have := List.length_pos.mpr h
    omega
  · have := List.length_pos.mpr h
    omega

theorem asmRender_change_all {c : Chunk} (hc : isChangeChunk c = true) :
    ∀ z ∈ asmRender c, isContextLine z = false := by
  intro z hz
  simp only [isChangeChunk, Bool.and_eq_true, Bool.not_eq_true',
    List.isEmpty_eq_true] at hc
  simp only [asmRender, hc.1.1, List.map_nil, List.append_nil,
    List.mem_append, List.mem_map] at hz
  rcases hz with ⟨y, _, rfl⟩ | ⟨y, _, rfl⟩
  · simp [isContextLine, swc_plus]
  · simp [isContextLine, swc_minus]

theorem bodyLines_mkAsmHunk (a b c d : Int) (body : List String)
    (hne : body ≠ []) (hnl : ∀ x ∈ body, '\n' ∉ x.data) :
    bodyLines (mkAsmHunk a b c d body) = body := by
  show splitNl (trimNl (joinNl body ++ "\n")) = body
  rw [trimNl_append_nl]
  exact splitNl_joinNl body hne hnl

theorem noNl_pre_append (a x : String) (ha : '\n' ∉ a.data)
    (hx : '\n' ∉ x.data) : '\n' ∉ (a ++ x).data := by
  rw [data_append]
  intro hc
  rcases List.mem_append.mp hc with h | h
  · exact ha h
  · exact hx h

theorem noNl_asmRender {c : Chunk}
    (h : (∀ x ∈ c.Added, '\n' ∉ x.data) ∧ (∀ x ∈ c.Deleted, '\n' ∉ x.data)
      ∧ (∀ x ∈ c.Equal, '\n' ∉ x.data)) :
    ∀ z ∈ asmRender c, '\n' ∉ z.data := by
  intro z hz
  simp only [asmRender, List.mem_append, List.mem_map] at hz
  rcases hz with (⟨y, hy, rfl⟩ | ⟨y, hy, rfl⟩) | ⟨y, hy, rfl⟩
  · exact noNl_pre_append _ _ (by decide) (h.1 y hy)
  · exact noNl_pre_append _ _ (by decide) (h.2.1 y hy)
  · exact noNl_pre_append _ _ (by decide) (h.2.2 y hy)

theorem ctx_of_space_map (l : List String) :
    ∀ x ∈ l.map (fun s => " " ++ s), isContextLine x = true := by
  intro x hx
  obtain ⟨y, _, rfl⟩ := List.mem_map.mp hx
  simp [isContextLine, swc_space]

theorem noNl_space_map {l : List String} (h : ∀ x ∈ l, '\n' ∉ x.data) :
    ∀ x ∈ l.map (fun s => " " ++ s), '\n' ∉ x.data := by
  intro x hx
  obtain ⟨y, hy, rfl⟩ := List.mem_map.mp hx
  exact noNl_pre_append _ _ (by decide) (h y hy)

theorem leading_calc (body0 tail : List String) (z : String)
    (hb : ∀ x ∈ body0, isContextLine x = true)
    (hz : isContextLine z = false) :
    ((body0 ++ z :: tail).takeWhile isContextLine).length = body0.length := by
  rw [takeWhile_append_all (z :: tail) hb, takeWhile_cons_false hz]
  simp

theorem asm_tail_spec (fd : FileDiff) (st1 : AsmState) (cH : Chunk)
    (ltail : List Chunk)
    (hhunks : st1.hunks = [])
    (hb0ctx : ∀ x ∈ st1.body, isContextLine x = true)
    (hb0len : st1.body.length ≤ contextLines)
    (hb0nl : ∀ x ∈ st1.body, '\n' ∉ x.data)
    (hShape2 : asmShape (cH :: ltail) = true)
    (hcH : isChangeChunk cH = true)
    (hNoSplit2 : ∀ c ∈ cH :: ltail, c.Equal.length ≤ 2 * contextLines + 1)
    (hNl2 : ∀ c ∈ cH :: ltail, (∀ x ∈ c.Added, '\n' ∉ x.data)
        ∧ (∀ x ∈ c.Deleted, '\n' ∉ x.data) ∧ (∀ x ∈ c.Equal, '\n' ∉ x.data)) :
    ∃ h, (asmFinish fd st1 (cH :: ltail)).Hunks = fd.Hunks ++ [h]
      ∧ leadingCtx h ≤ contextLines ∧ trailingCtx h ≤ contextLines := by
  obtain ⟨init, clast, hconcat⟩ :=
    (List.eq_nil_or_concat (cH :: ltail)).resolve_left (by simp)
  rw [List.concat_eq_append] at hconcat
  have hlast : (cH :: ltail).getLast?.getD (⟨[], [], []⟩ : Chunk) = clast := by
    rw [hconcat, List.getLast?_concat]
    rfl
  have hmemlast : clast ∈ cH :: ltail := by rw [hconcat]; simp
  have hclastCE := asmShape_mem hShape2 clast hmemlast
  obtain ⟨z, zs, hzeq⟩ :=
    List.exists_cons_of_ne_nil (asmRender_change_ne_nil hcH)
  have hzctx : isContextLine z = false :=
    asmRender_change_all hcH z (by rw [hzeq]; simp)
  have hRnl : ∀ (l : List Chunk), (∀ c ∈ l, c ∈ cH :: ltail) →
      ∀ x ∈ (l.map asmRender).flatten, '\n' ∉ x.data := by
    intro l hsub x hx
    rw [List.mem_flatten] at hx
    obtain ⟨r, hr, hxr⟩ := hx
    rw [List.mem_map] at hr
    obtain ⟨c, hc, rfl⟩ := hr
    exact noNl_asmRender (hNl2 c (hsub c hc)) x hxr
  simp only [asmFinish]
  rw [hlast]
  by_cases hle : clast.Equal.isEmpty = true
  · have hclast : isChangeChunk clast = true := by
      rcases (by simpa using hclastCE : isChangeChunk clast = true ∨ isEqChunk clast = true) with h | h
      · exact h
      · exfalso
        simp only [isEqChunk, Bool.and_eq_true, Bool.not_eq_true',
          List.isEmpty_eq_true, List.isEmpty_eq_false] at h
        simp only [List.isEmpty_eq_true] at hle
        exact h.2 hle
    rw [if_pos hle]
    dsimp only
    obtain ⟨dO, dN, hfold⟩ := foldl_asmChunk_noSplit (cH :: ltail) st1 hNoSplit2
    rw [hfold]
    dsimp only
    rw [hhunks]
    simp only [List.append_nil, List.nil_append]
    have hne : st1.body ++ ((cH :: ltail).map asmRender).flatten ≠ [] := by
      rw [List.map_cons, List.flatten_cons, hzeq]
      simp
    have hnl : ∀ x ∈ st1.body ++ ((cH :: ltail).map asmRender).flatten,
        '\n' ∉ x.data := by
      intro x hx
      rcases List.mem_append.mp hx with h | h
      · exact hb0nl x h
      · exact hRnl _ (fun c hc => hc) x h
    refine ⟨_, rfl, ?_, ?_⟩
    · unfold leadingCtx
      rw [bodyLines_mkAsmHunk _ _ _ _ _ hne hnl]
      rw [show st1.body ++ ((cH :: ltail).map asmRender).flatten
        = st1.body ++ (z :: (zs ++ (ltail.map asmRender).flatten)) from by
          rw [List.map_cons, List.flatten_cons, hzeq]
          simp [List.append_assoc]]
      rw [leading_calc _ _ _ hb0ctx hzctx]
      exact hb0len
    · unfold trailingCtx
      rw [bodyLines_mkAsmHunk _ _ _ _ _ hne hnl]
      rw [show st1.body ++ ((cH :: ltail).map asmRender).flatten
        = (st1.body ++ (init.map asmRender).flatten) ++ asmRender clast from by
          rw [hconcat, List.map_append, List.flatten_append]
          simp [List.append_assoc]]
      rw [trailing_end_nonctx _ (asmRender_change_ne_nil hclast)
        (asmRender_change_all hclast)]
      simp
  · have hclastEq : isEqChunk clast = true := by
      rcases (by simpa using hclastCE : isChangeChunk clast = true ∨ isEqChunk clast = true) with h | h
      · exfalso
        simp only [isChangeChunk, Bool.and_eq_true,
          List.isEmpty_eq_true] at h
        rw [h.1.1] at hle
        simp at hle
      · exact h
    have hAeq : clast.Added = [] := by
      simp only [isEqChunk, Bool.and_eq_true, List.isEmpty_eq_true] at hclastEq
      exact hclastEq.1.1
    have hDeq : clast.Deleted = [] := by
      simp only [isEqChunk, Bool.and_eq_true, List.isEmpty_eq_true] at hclastEq
      exact hclastEq.1.2
    have hinitne : init ≠ [] := by
      intro hinit
      rw [hinit, List.nil_append] at hconcat
      injection hconcat with h1 h2
      rw [h1] at hcH
      simp only [isChangeChunk, Bool.and_eq_true,
        List.isEmpty_eq_true] at hcH
      exact hle (by rw [hcH.1.1]; rfl)
    obtain ⟨init2, cprev, hinitconcat⟩ :=
      (List.eq_nil_or_concat init).resolve_left hinitne
    rw [List.concat_eq_append] at hinitconcat
    have hcprevCE := asmShape_mem hShape2 cprev (by
      rw [hconcat, hinitconcat]
      simp)
    have hpair := asmShape_pair hShape2 init2 cprev clast []
      (by rw [hconcat, hinitconcat]; simp)
    have hcprev : isChangeChunk cprev = true := by
      rcases (by simpa using hcprevCE : isChangeChunk cprev = true ∨ isEqChunk cprev = true) with h | h
      · exact h
      · exact absurd ⟨h, hclastEq⟩ hpair
    obtain ⟨init', hinit'⟩ : ∃ init', init = cH :: init' := by
      cases init with
      | nil => exact absurd rfl hinitne
      | cons i0 init'' =>
        rw [List.cons_append] at hconcat
        injection hconcat with h1 h2
        exact ⟨init'', by rw [← h1]⟩
    rw [if_neg hle]
    dsimp only
    have hupd : updateLast (fun c => { c with Equal := [] }) (cH :: ltail)
        = init ++ [{ clast with Equal := ([] : List String) }] := by
      rw [hconcat, updateLast_concat]
    rw [hupd]
    obtain ⟨dO, dN, hfold⟩ := foldl_asmChunk_noSplit
      (init ++ [{ clast with Equal := ([] : List String) }]) st1 (by
        intro c hc
        rcases List.mem_append.mp hc with h | h
        · exact hNoSplit2 c (by rw [hconcat]; exact List.mem_append_left _ h)
        · rw [List.mem_singleton.mp h]
          simp [contextLines])
    rw [hfold]
    dsimp only
    rw [hhunks]
    simp only [List.append_nil, List.nil_append]
    have hrenClr : asmRender { clast with Equal := ([] : List String) } = [] := by
      simp [asmRender, hAeq, hDeq]
    have hRform : ((init ++ [{ clast with Equal := ([] : List String) }]).map
        asmRender).flatten = (init.map asmRender).flatten := by
      rw [List.map_append, List.flatten_append]
      simp [hrenClr]
    rw [hRform]
    have hR1 : (init.map asmRender).flatten
        = asmRender cH ++ (init'.map asmRender).flatten := by
      rw [hinit', List.map_cons, List.flatten_cons]
    have hR2 : (init.map asmRender).flatten
        = (init2.map asmRender).flatten ++ asmRender cprev := by
      rw [hinitconcat, List.map_append, List.flatten_append]
      simp
    have hlastctx := ctx_of_space_map (clast.Equal.take contextLines)
    have hlastlen : ((clast.Equal.take contextLines).map
        (fun l => " " ++ l)).length ≤ contextLines := by
      rw [List.length_map, List.length_take]
      exact min_le_left _ _
    have hne : (st1.body ++ (init.map asmRender).flatten)
        ++ (clast.Equal.take contextLines).map (fun l => " " ++ l) ≠ [] := by
      rw [hR1, hzeq]
      simp
    have hnl : ∀ x ∈ (st1.body ++ (init.map asmRender).flatten)
        ++ (clast.Equal.take contextLines).map (fun l => " " ++ l),
        '\n' ∉ x.data := by
      intro x hx
      rcases List.mem_append.mp hx with h | h
      · rcases List.mem_append.mp h with h' | h'
        · exact hb0nl x h'
        · exact hRnl init (fun c hc => by
            rw [hconcat]; exact List.mem_append_left _ hc) x h'
      · exact noNl_space_map
          (fun y hy => (hNl2 clast hmemlast).2.2 y (List.mem_of_mem_take hy))
          x h
    refine ⟨_, rfl, ?_, ?_⟩
    · unfold leadingCtx
      rw [bodyLines_mkAsmHunk _ _ _ _ _ hne hnl]
      rw [show (st1.body ++ (init.map asmRender).flatten)
          ++ (clast.Equal.take contextLines).map (fun l => " " ++ l)
        = st1.body ++ (z :: (zs ++ (init'.map asmRender).flatten
            ++ (clast.Equal.take contextLines).map (fun l => " " ++ l)))
        from by
          rw [hR1, hzeq]
          simp [List.append_assoc]]
      rw [leading_calc _ _ _ hb0ctx hzctx]
      exact hb0len
    · unfold trailingCtx
      rw [bodyLines_mkAsmHunk _ _ _ _ _ hne hnl]
      rw [show (st1.body ++ (init.map asmRender).flatten)
          ++ (clast.Equal.take contextLines).map (fun l => " " ++ l)
        = ((st1.body ++ (init2.map asmRender).flatten) ++ asmRender cprev)
          ++ (clast.Equal.take contextLines).map (fun l => " " ++ l) from by
          rw [hR2]
          simp [List.append_assoc]]
      rw [trailing_append_all _ hlastctx]
      rw [trailing_end_nonctx _ (asmRender_change_ne_nil hcprev)
        (asmRender_change_all hcprev)]
      simp only [List.length_nil, Nat.add_zero]
      exact hlastlen

/-- C6: spec corrected. After a hunk split the reopened hunk carries
`contextLines + 1 = 3` leading context lines (see the counterexample);
but on chunk lists of the line-diff collaborator's shape whose equal runs
all fit within `2*contextLines + 1` lines — changes separated by fewer
than `2N+2` equal lines — the assembler emits exactly one hunk, and that
hunk has at most `contextLines` leading and at most `contextLines`
trailing context lines. -/
theorem asm_context_amended (cks : List Chunk) (fd : FileDiff)
    (hShape : asmShape cks = true)
    (hNoSplit : ∀ c ∈ cks, c.Equal.length ≤ 2 * contextLines + 1)
    (hChange : cks.any chunkHasChange = true)
    (hNl : ∀ c ∈ cks, (∀ x ∈ c.Added, '\n' ∉ x.data)
        ∧ (∀ x ∈ c.Deleted, '\n' ∉ x.data) ∧ (∀ x ∈ c.Equal, '\n' ∉ x.data)) :
    ∃ h, (convertChunksIntoFileDiff cks fd).Hunks = fd.Hunks ++ [h]
      ∧ leadingCtx h ≤ contextLines ∧ trailingCtx h ≤ contextLines := by
  have hnotempty : ∀ c ∈ cks, chunkEmpty c = false :=
    fun c hc => chunk_not_empty (asmShape_mem hShape c hc)
  cases cks with
  | nil => simp at hChange
  | cons c0 rest =>
  have hnotsingle : ¬(((c0 :: rest) : List Chunk).length = 1
      ∧ (((c0 :: rest) : List Chunk).headD ⟨[], [], []⟩).Added.isEmpty = true
      ∧ (((c0 :: rest) : List Chunk).headD
          ⟨[], [], []⟩).Deleted.isEmpty = true) := by
    rintro ⟨hlen, hA, hD⟩
    have hrest : rest = [] := by
      simp only [List.length_cons] at hlen
      exact List.eq_nil_of_length_eq_zero (by omega)
    subst hrest
    simp only [List.headD_cons, List.isEmpty_eq_true] at hA hD
    simp only [List.any_cons, List.any_nil, Bool.or_false, chunkHasChange,
      Bool.or_eq_true, Bool.not_eq_true', List.isEmpty_eq_false] at hChange
    rcases hChange with h | h
    · exact h hA
    · exact h hD
  simp only [convertChunksIntoFileDiff]
  rw [dropWhile_head_false hnotempty, dropEndWhile_last_false hnotempty]
  rw [if_neg hnotsingle]
  rw [if_neg (by simp : ¬(((c0 :: rest) : List Chunk).isEmpty = true))]
  by_cases hc0 : (c0.Added.isEmpty && c0.Deleted.isEmpty) = true
  · -- the first chunk is a pure equal run
    have hc0eq : isEqChunk c0 = true := by
      rcases (by simpa using asmShape_mem hShape c0 (by simp) :
          isChangeChunk c0 = true ∨ isEqChunk c0 = true) with h | h
      · exfalso
        simp only [Bool.and_eq_true] at hc0
        simp only [isChangeChunk, Bool.and_eq_true, Bool.or_eq_true,
          Bool.not_eq_true'] at h
        rcases h.1.2 with h2 | h2 <;> rw [h2] at hc0 <;> simp at hc0
      · exact h
    have hrestne : rest ≠ [] := by
      intro hr
      subst hr
      simp only [List.any_cons, List.any_nil, Bool.or_false] at hChange
      simp only [chunkHasChange, Bool.or_eq_true, Bool.not_eq_true',
        List.isEmpty_eq_false] at hChange
      simp only [Bool.and_eq_true, List.isEmpty_eq_true] at hc0
      rcases hChange with h | h
      · exact h hc0.1
      · exact h hc0.2
    cases rest with
    | nil => exact absurd rfl hrestne
    | cons c1 rest2 =>
    have hc1 : isChangeChunk c1 = true := by
      rcases (by simpa using asmShape_mem hShape c1 (by simp) :
          isChangeChunk c1 = true ∨ isEqChunk c1 = true) with h | h
      · exact h
      · exact absurd ⟨hc0eq, h⟩ (asmShape_adj hShape)
    have htail : asmShape (c1 :: rest2) = true := (asmShape_cons hShape).2
    have hns2 : ∀ c ∈ c1 :: rest2, c.Equal.length ≤ 2 * contextLines + 1 :=
      fun c hc => hNoSplit c (List.mem_cons_of_mem c0 hc)
    have hnl2 : ∀ c ∈ c1 :: rest2, (∀ x ∈ c.Added, '\n' ∉ x.data)
        ∧ (∀ x ∈ c.Deleted, '\n' ∉ x.data) ∧ (∀ x ∈ c.Equal, '\n' ∉ x.data) :=
      fun c hc => hNl c (List.mem_cons_of_mem c0 hc)
    have hnlE := (hNl c0 (by simp)).2.2
    dsimp only
    rw [if_pos hc0]
    by_cases hn : contextLines < c0.Equal.length
    · rw [if_pos hn]
      dsimp only
      exact asm_tail_spec fd _ c1 rest2 rfl
        (ctx_of_space_map _)
        (by
          simp only [List.length_map, List.length_drop]
          omega)
        (noNl_space_map (fun y hy => hnlE y (List.mem_of_mem_drop hy)))
        htail hc1 hns2 hnl2
    · rw [if_neg hn]
      dsimp only
      exact asm_tail_spec fd _ c1 rest2 rfl
        (ctx_of_space_map _)
        (by
          simp only [List.length_map]
          omega)
        (noNl_space_map hnlE)
        htail hc1 hns2 hnl2
  · -- the first chunk carries a change
    have hc0ch : isChangeChunk c0 = true := by
      rcases (by simpa using asmShape_mem hShape c0 (by simp) :
          isChangeChunk c0 = true ∨ isEqChunk c0 = true) with h | h
      · exact h
      · exfalso
        simp only [isEqChunk, Bool.and_eq_true] at h
        rw [h.1.1, h.1.2] at hc0
        simp at hc0
    dsimp only
    rw [if_neg hc0]
    dsimp only
    exact asm_tail_spec fd _ c0 rest rfl
      (fun x hx => (List.not_mem_nil x hx).elim)
      (by decide)
      (fun x hx => (List.not_mem_nil x hx).elim)
      hShape hc0ch hNoSplit hNl

theorem asm_context_amended_witness :
    ∃ h, (convertChunksIntoFileDiff
        [(⟨[], ["X1"], []⟩ : Chunk), ⟨["Y1"], [], []⟩, ⟨[], [], ["e1", "e2"]⟩]
        exEmptyFd).Hunks = exEmptyFd.Hunks ++ [h]
      ∧ leadingCtx h ≤ contextLines ∧ trailingCtx h ≤ contextLines :=
  asm_context_amended _ exEmptyFd (by decide) (by decide) (by decide)
    (by decide)
